import Mathlib

/-!
Shallow embedding of the doubly-linked list container in src/list.h
(namespace custom, template class list with nested Node and iterator).

Machine model: nodes live in a heap addressed by natural numbers.  A heap
cell holds a Node (data, pNext, pPrev); a null pointer is the value none.
A Mem carries the heap, a fresh-address counter used by allocation
(modelling operator new), and a counter of raw T objects that were
allocated and never released (used to model the leak in front and back).
A list object is the triple of member variables of custom::list:
numElements, pHead, pTail.  An iterator is its member p, an Option Nat.

Every operation is translated statement by statement from src/list.h.
A pointer dereference becomes a heap lookup; dereferencing null or a
dangling address returns none (the C++ behavior there is undefined).
While loops are run on fuel taken from the loop bound that holds in
well-formed states (numElements, the length of the chain).
-/

namespace custom

/-- A heap node, mirroring the nested class list::Node in src/list.h:
user data plus pNext and pPrev pointers. -/
structure Node (T : Type) where
  data : T
  pNext : Option Nat
  pPrev : Option Nat
deriving Repr, DecidableEq

/-- Heap: a partial map from addresses to nodes. -/
def Heap (T : Type) : Type := Nat → Option (Node T)

/-- Write the node nd at address a. -/
def hset (h : Heap T) (a : Nat) (nd : Node T) : Heap T :=
  fun b => if b = a then some nd else h b

/-- Release the node at address a (models delete). -/
def hdel (h : Heap T) (a : Nat) : Heap T :=
  fun b => if b = a then none else h b

/-- Memory: the node heap, the next fresh address handed out by new, and
the number of raw T objects allocated by new T and never released. -/
structure Mem (T : Type) where
  heap : Heap T
  nextAddr : Nat
  leakedT : Nat

/-- Models new Node(...): place the node at a fresh address. -/
def Mem.alloc (m : Mem T) (nd : Node T) : Mem T × Nat :=
  ({ m with heap := hset m.heap m.nextAddr nd, nextAddr := m.nextAddr + 1 },
   m.nextAddr)

/-- The member variables of custom::list: numElements, pHead, pTail. -/
structure list where
  numElements : Nat
  pHead : Option Nat
  pTail : Option Nat
deriving Repr, DecidableEq

/-- The default constructor list(): empty list. -/
def list.mk0 : list := { numElements := 0, pHead := none, pTail := none }

/-- An empty memory with no allocations. -/
def Mem.mk0 (T : Type) : Mem T := { heap := fun _ => none, nextAddr := 0, leakedT := 0 }

/-- push_back (both overloads have the same body up to std::move of the
value, which is identity here): allocate a node, link it after pTail, or
make it the sole node when the list is empty; increment numElements. -/
def push_back (m : Mem T) (l : list) (data : T) : Option (Mem T × list) :=
  let (m1, aNew) := m.alloc { data := data, pNext := none, pPrev := none }
  match l.pTail with
  | some aTail =>
    -- pTail->pNext = pNew; pNew->pPrev = pTail; pTail = pNew
    match m1.heap aTail with
    | none => none
    | some ndTail =>
      let h2 := hset m1.heap aTail { ndTail with pNext := some aNew }
      match h2 aNew with
      | none => none
      | some ndNew =>
        let h3 := hset h2 aNew { ndNew with pPrev := some aTail }
        some ({ m1 with heap := h3 },
              { l with pTail := some aNew, numElements := l.numElements + 1 })
  | none =>
    -- pHead = pTail = pNew
    some (m1, { numElements := l.numElements + 1,
                pHead := some aNew, pTail := some aNew })

/-- push_front (both overloads): allocate a node, link it before pHead,
or make it the sole node when the list is empty; increment numElements. -/
def push_front (m : Mem T) (l : list) (data : T) : Option (Mem T × list) :=
  let (m1, aNew) := m.alloc { data := data, pNext := none, pPrev := none }
  match l.pHead with
  | some aHead =>
    -- pHead->pPrev = pNew; pNew->pNext = pHead; pHead = pNew
    match m1.heap aHead with
    | none => none
    | some ndHead =>
      let h2 := hset m1.heap aHead { ndHead with pPrev := some aNew }
      match h2 aNew with
      | none => none
      | some ndNew =>
        let h3 := hset h2 aNew { ndNew with pNext := some aHead }
        some ({ m1 with heap := h3 },
              { l with pHead := some aNew, numElements := l.numElements + 1 })
  | none =>
    some (m1, { numElements := l.numElements + 1,
                pHead := some aNew, pTail := some aNew })

/-- pop_back: nothing when pTail is null; otherwise unlink and delete the
tail node and decrement numElements. -/
def pop_back (m : Mem T) (l : list) : Option (Mem T × list) :=
  match l.pTail with
  | none => some (m, l)
  | some aDel =>
    match m.heap aDel with
    | none => none
    | some ndDel =>
      -- pTail = pTail->pPrev
      match ndDel.pPrev with
      | some aPrev =>
        -- pTail->pNext = nullptr
        match m.heap aPrev with
        | none => none
        | some ndPrev =>
          let h1 := hset m.heap aPrev { ndPrev with pNext := none }
          some ({ m with heap := hdel h1 aDel },
                { l with pTail := some aPrev, numElements := l.numElements - 1 })
      | none =>
        -- pHead = nullptr
        some ({ m with heap := hdel m.heap aDel },
              { numElements := l.numElements - 1, pHead := none, pTail := none })

/-- pop_front: nothing when pHead is null; otherwise unlink and delete
the head node and decrement numElements. -/
def pop_front (m : Mem T) (l : list) : Option (Mem T × list) :=
  match l.pHead with
  | none => some (m, l)
  | some aDel =>
    match m.heap aDel with
    | none => none
    | some ndDel =>
      match ndDel.pNext with
      | some aNext =>
        match m.heap aNext with
        | none => none
        | some ndNext =>
          let h1 := hset m.heap aNext { ndNext with pPrev := none }
          some ({ m with heap := hdel h1 aDel },
                { l with pHead := some aNext, numElements := l.numElements - 1 })
      | none =>
        some ({ m with heap := hdel m.heap aDel },
              { numElements := l.numElements - 1, pHead := none, pTail := none })

/-- front: when numElements is not 0 return pHead->data, otherwise the
source executes return *(new T), manufacturing a default T that is never
released; the model records that allocation in leakedT. -/
def front [Inhabited T] (m : Mem T) (l : list) : Option (Mem T × T) :=
  if l.numElements ≠ 0 then
    match l.pHead with
    | none => none
    | some aHead =>
      match m.heap aHead with
      | none => none
      | some nd => some (m, nd.data)
  else
    some ({ m with leakedT := m.leakedT + 1 }, default)

/-- back: when numElements is not 0 return pTail->data, otherwise
return *(new T), a leaked default value, as in front. -/
def back [Inhabited T] (m : Mem T) (l : list) : Option (Mem T × T) :=
  if l.numElements ≠ 0 then
    match l.pTail with
    | none => none
    | some aTail =>
      match m.heap aTail with
      | none => none
      | some nd => some (m, nd.data)
  else
    some ({ m with leakedT := m.leakedT + 1 }, default)

/-- The tail of insert(iterator, const T&) after the first if of the
splice branch: models, reading pNew back from the heap,
if (pNew->pNext) pNew->pNext->pPrev = pNew; else pTail = pNew;
followed by numElements++ and return iterator(pNew). -/
def insertFinish (m1 : Mem T) (h : Heap T) (l1 : list) (aNew : Nat) :
    Option (Mem T × list × Option Nat) :=
  match h aNew with
  | none => none
  | some ndNew =>
    match ndNew.pNext with
    | some aNext =>
      match h aNext with
      | none => none
      | some ndNext =>
        let h4 := hset h aNext { ndNext with pPrev := some aNew }
        some ({ m1 with heap := h4 },
              { l1 with numElements := l1.numElements + 1 }, some aNew)
    | none =>
      some ({ m1 with heap := h },
            { l1 with pTail := some aNew, numElements := l1.numElements + 1 },
            some aNew)

/-- insert(iterator, const T&): allocate pNew, then three branches as in
the source: empty list (pNew becomes head and tail, numElements set to 1,
return begin()); it == end() (append after pTail); otherwise splice pNew
immediately before it.p.  The final else of the source (return end()) is
unreachable and kept as the none arm of the inner match. -/
def insert (m : Mem T) (l : list) (itp : Option Nat) (data : T) :
    Option (Mem T × list × Option Nat) :=
  let (m1, aNew) := m.alloc { data := data, pNext := none, pPrev := none }
  if l.pHead = none then
    some (m1, { numElements := 1, pHead := some aNew, pTail := some aNew },
          some aNew)
  else if itp = none then
    match l.pTail with
    | none => none
    | some aTail =>
      match m1.heap aTail with
      | none => none
      | some ndTail =>
        let h2 := hset m1.heap aTail { ndTail with pNext := some aNew }
        match h2 aNew with
        | none => none
        | some ndNew =>
          let h3 := hset h2 aNew { ndNew with pPrev := some aTail }
          some ({ m1 with heap := h3 },
                { l with pTail := some aNew, numElements := l.numElements + 1 },
                some aNew)
  else
    match itp with
    | none => some (m1, l, none)
    | some aIt =>
      match m1.heap aIt with
      | none => none
      | some ndIt =>
        -- pNew->pPrev = it.p->pPrev; pNew->pNext = it.p
        let h2 := hset m1.heap aNew
          { data := data, pNext := some aIt, pPrev := ndIt.pPrev }
        match h2 aNew with
        | none => none
        | some ndNew1 =>
          -- if (pNew->pPrev) pNew->pPrev->pNext = pNew; else pHead = pNew
          match ndNew1.pPrev with
          | some aPrev =>
            match h2 aPrev with
            | none => none
            | some ndPrev =>
              insertFinish m1 (hset h2 aPrev { ndPrev with pNext := some aNew }) l aNew
          | none =>
            insertFinish m1 h2 { l with pHead := some aNew } aNew

/-- insert(iterator, T&&): the source body is the single statement
return end(); nothing is allocated, linked, or counted. -/
def insert_move (m : Mem T) (l : list) (itp : Option Nat) (data : T) :
    Option (Mem T × list × Option Nat) :=
  some (m, l, none)

/-- erase: when it.p is null return end(); otherwise unlink the node
(first the backward neighbor or pHead, then the forward neighbor or
pTail), build the return iterator from pDelete->pNext, delete the node
and decrement numElements. -/
def erase (m : Mem T) (l : list) (itp : Option Nat) :
    Option (Mem T × list × Option Nat) :=
  match itp with
  | none => some (m, l, none)
  | some aDel =>
    match m.heap aDel with
    | none => none
    | some nd0 =>
      let step1 : Option (Heap T × list) :=
        match nd0.pPrev with
        | some aPrev =>
          match m.heap aPrev with
          | none => none
          | some ndPrev =>
            some (hset m.heap aPrev { ndPrev with pNext := nd0.pNext }, l)
        | none => some (m.heap, { l with pHead := nd0.pNext })
      match step1 with
      | none => none
      | some (h1, l1) =>
        match h1 aDel with
        | none => none
        | some nd1 =>
          let step2 : Option (Heap T × list) :=
            match nd1.pNext with
            | some aNext =>
              match h1 aNext with
              | none => none
              | some ndNext =>
                some (hset h1 aNext { ndNext with pPrev := nd1.pPrev }, l1)
            | none => some (h1, { l1 with pTail := nd1.pPrev })
          match step2 with
          | none => none
          | some (h2, l2) =>
            match h2 aDel with
            | none => none
            | some nd2 =>
              some ({ m with heap := hdel h2 aDel },
                    { l2 with numElements := l2.numElements - 1 },
                    nd2.pNext)

/-- The while loop of clear, on fuel: while (pHead != nullptr)
{ pDelete = pHead; pHead = pHead->pNext; delete pDelete; }. -/
def clearLoop (T : Type) : Nat → Heap T → Option Nat → Option (Heap T)
  | _, h, none => some h
  | 0, _, some _ => none
  | fuel + 1, h, some a =>
    match h a with
    | none => none
    | some nd => clearLoop T fuel (hdel h a) nd.pNext

/-- clear: run the deletion loop from pHead (fuel numElements, the loop
bound in a well-formed list), then pTail = nullptr and numElements = 0. -/
def clear (m : Mem T) (l : list) : Option (Mem T × list) :=
  match clearLoop T l.numElements m.heap l.pHead with
  | none => none
  | some h => some ({ m with heap := h },
                    { numElements := 0, pHead := none, pTail := none })

/-- The copy loop shared by the copy constructor and copy assignment:
pCurrent = from; while (pCurrent != nullptr)
{ push_back(pCurrent->data); pCurrent = pCurrent->pNext; }
with pCurrent->pNext read after the push_back call, as in the source.
Fuel is the source numElements, the loop bound in a well-formed list. -/
def copyLoop (T : Type) : Nat → Mem T → list → Option Nat → Option (Mem T × list)
  | _, m, dst, none => some (m, dst)
  | 0, _, _, some _ => none
  | fuel + 1, m, dst, some a =>
    match m.heap a with
    | none => none
    | some nd =>
      match push_back m dst nd.data with
      | none => none
      | some (m1, dst1) =>
        match m1.heap a with
        | none => none
        | some nd1 => copyLoop T fuel m1 dst1 nd1.pNext

/-- The copy constructor list(list&, const A&): start empty and
push_back each node of rhs front to back (the guard on rhs.pHead in the
source is subsumed by the loop condition). -/
def copy_construct (m : Mem T) (rhs : list) : Option (Mem T × list) :=
  copyLoop T rhs.numElements m list.mk0 rhs.pHead

/-- The move constructor list(list&&, const A&): adopt the members of
rhs, then null out rhs and zero its count.  Returns the new list and the
state rhs is left in. -/
def move_construct (m : Mem T) (rhs : list) : Mem T × list × list :=
  (m,
   { numElements := rhs.numElements, pHead := rhs.pHead, pTail := rhs.pTail },
   { numElements := 0, pHead := none, pTail := none })

/-- Copy assignment operator=(list&): the identity check this != &rhs is
the isSelf flag (object identity is not derivable from the member
values); when distinct, clear() then the copy loop over rhs. -/
def assign_copy (m : Mem T) (lhs rhs : list) (isSelf : Bool) :
    Option (Mem T × list) :=
  if isSelf then some (m, lhs)
  else
    match clear m lhs with
    | none => none
    | some (m1, l1) => copyLoop T rhs.numElements m1 l1 rhs.pHead

/-- Move assignment operator=(list&&): the source body is
*this = std::move(rhs); return *this; — the assignment re-selects the
same move-assignment operator on the same operands, so each call only
makes the identical call again.  On fuel: none means the recursion is
still running when the fuel runs out. -/
def assign_move_fuel (T : Type) :
    Nat → Mem T → list → list → Option (Mem T × list × list)
  | 0, _, _, _ => none
  | fuel + 1, m, lhs, rhs => assign_move_fuel T fuel m lhs rhs

/-- operator=(const std::initializer_list<T>&): the source body is the
single statement return *this; — nothing is discarded or rebuilt. -/
def assign_init (m : Mem T) (lhs : list) (il : List T) : Mem T × list :=
  (m, lhs)

/-- The member void swap(list& rhs) {}: an empty body. -/
def swap_member (m : Mem T) (lhs rhs : list) : Mem T × list × list :=
  (m, lhs, rhs)

/-- The free function swap(list& lhs, list& rhs): the source body is the
single statement lhs.numElements = 99. -/
def swap_free (m : Mem T) (lhs rhs : list) : Mem T × list × list :=
  (m, { lhs with numElements := 99 }, rhs)

/-- The first address of c, or the fallback nxt when c is empty. -/
def hd? (c : List Nat) (nxt : Option Nat) : Option Nat :=
  match c with
  | [] => nxt
  | a :: _ => some a

/-- The last address of c, or the fallback prev when c is empty. -/
def lastO (c : List Nat) (prev : Option Nat) : Option Nat :=
  match c.getLast? with
  | none => prev
  | some a => some a

/-- The addresses c form a doubly-linked segment in h: the first node
has pPrev = prev, consecutive nodes point at each other, and the last
node has pNext = nxt. -/
def isSeg (h : Heap T) : Option Nat → List Nat → Option Nat → Prop
  | _, [], _ => True
  | prev, a :: rest, nxt =>
      ∃ nd, h a = some nd ∧ nd.pPrev = prev ∧ nd.pNext = hd? rest nxt ∧
        isSeg h (some a) rest nxt

/-- The member variables of l describe exactly the chain c in the heap
of m: a complete segment (null at both ends), pHead and pTail at its
ends, numElements its length, addresses distinct and below the
allocation frontier. -/
def isChain (m : Mem T) (l : list) (c : List Nat) : Prop :=
  isSeg m.heap none c none ∧ l.pHead = hd? c none ∧ l.pTail = lastO c none ∧
    l.numElements = c.length ∧ c.Nodup ∧ ∀ a ∈ c, a < m.nextAddr

/-- Well-formed list: some chain realizes it. -/
def Wf (m : Mem T) (l : list) : Prop := ∃ c, isChain m l c

@[simp] theorem hset_self (h : Heap T) (a : Nat) (nd : Node T) :
    hset h a nd a = some nd := by simp [hset]

theorem hset_other (h : Heap T) (a b : Nat) (nd : Node T) (hne : b ≠ a) :
    hset h a nd b = h b := by simp [hset, hne]

@[simp] theorem hdel_self (h : Heap T) (a : Nat) : hdel h a a = none := by
  simp [hdel]

theorem hdel_other (h : Heap T) (a b : Nat) (hne : b ≠ a) :
    hdel h a b = h b := by simp [hdel, hne]

@[simp] theorem hd?_nil (nxt : Option Nat) : hd? [] nxt = nxt := rfl

@[simp] theorem hd?_cons (a : Nat) (c : List Nat) (nxt : Option Nat) :
    hd? (a :: c) nxt = some a := rfl

theorem hd?_append (c1 c2 : List Nat) (nxt : Option Nat) :
    hd? (c1 ++ c2) nxt = hd? c1 (hd? c2 nxt) := by
  cases c1 <;> simp [hd?]

@[simp] theorem lastO_nil (prev : Option Nat) : lastO [] prev = prev := rfl

theorem lastO_append (c1 c2 : List Nat) (prev : Option Nat) :
    lastO (c1 ++ c2) prev = lastO c2 (lastO c1 prev) := by
  cases h2 : c2.getLast? with
  | none =>
    rw [List.getLast?_eq_none_iff] at h2
    subst h2; simp [lastO]
  | some a =>
    have : (c1 ++ c2).getLast? = some a := by
      rw [List.getLast?_append, h2, Option.or]
    simp [lastO, this, h2]

@[simp] theorem lastO_single (a : Nat) (prev : Option Nat) :
    lastO [a] prev = some a := rfl

theorem lastO_cons (a : Nat) (c : List Nat) (prev : Option Nat) :
    lastO (a :: c) prev = lastO c (some a) := by
  have : a :: c = [a] ++ c := rfl
  rw [this, lastO_append, lastO_single]

@[simp] theorem isSeg_nil (h : Heap T) (prev nxt : Option Nat) :
    isSeg h prev [] nxt := trivial

theorem isSeg_cons (h : Heap T) (prev nxt : Option Nat) (a : Nat)
    (rest : List Nat) :
    isSeg h prev (a :: rest) nxt ↔
      ∃ nd, h a = some nd ∧ nd.pPrev = prev ∧ nd.pNext = hd? rest nxt ∧
        isSeg h (some a) rest nxt := Iff.rfl

/-- Segments only look at the heap on their own addresses. -/
theorem isSeg_congr (h h' : Heap T) (prev nxt : Option Nat) (c : List Nat)
    (hagree : ∀ b ∈ c, h' b = h b) :
    isSeg h' prev c nxt ↔ isSeg h prev c nxt := by
  induction c generalizing prev with
  | nil => simp
  | cons a rest ih =>
    rw [isSeg_cons, isSeg_cons]
    constructor
    · rintro ⟨nd, hnd, hp, hn, hrest⟩
      refine ⟨nd, ?_, hp, hn, ?_⟩
      · rw [← hagree a (by simp)]; exact hnd
      · exact (ih (some a) fun b hb => hagree b (by simp [hb])).mp hrest
    · rintro ⟨nd, hnd, hp, hn, hrest⟩
      refine ⟨nd, ?_, hp, hn, ?_⟩
      · rw [hagree a (by simp)]; exact hnd
      · exact (ih (some a) fun b hb => hagree b (by simp [hb])).mpr hrest

/-- Joining two adjacent segments. -/
theorem isSeg_append (h : Heap T) (prev nxt : Option Nat) (c1 c2 : List Nat)
    (h1 : isSeg h prev c1 (hd? c2 nxt)) (h2 : isSeg h (lastO c1 prev) c2 nxt) :
    isSeg h prev (c1 ++ c2) nxt := by
  induction c1 generalizing prev with
  | nil => simpa using h2
  | cons a rest ih =>
    rw [isSeg_cons] at h1
    obtain ⟨nd, hnd, hp, hn, hrest⟩ := h1
    rw [List.cons_append, isSeg_cons]
    refine ⟨nd, hnd, hp, ?_, ?_⟩
    · rw [hd?_append]; exact hn
    · exact ih (some a) hrest (by rwa [lastO_cons] at h2)

/-- Splitting a segment at an append point. -/
theorem isSeg_split (h : Heap T) (prev nxt : Option Nat) (c1 c2 : List Nat)
    (hs : isSeg h prev (c1 ++ c2) nxt) :
    isSeg h prev c1 (hd? c2 nxt) ∧ isSeg h (lastO c1 prev) c2 nxt := by
  induction c1 generalizing prev with
  | nil => simpa using hs
  | cons a rest ih =>
    rw [List.cons_append, isSeg_cons] at hs
    obtain ⟨nd, hnd, hp, hn, hrest⟩ := hs
    obtain ⟨ha, hb⟩ := ih (some a) hrest
    constructor
    · rw [isSeg_cons]
      exact ⟨nd, hnd, hp, by rwa [hd?_append] at hn, ha⟩
    · rwa [lastO_cons]

/-- The data stored along a list of addresses. -/
def dataOf (h : Heap T) (c : List Nat) : List T :=
  c.filterMap fun a => (h a).map Node.data

theorem dataOf_congr (h h' : Heap T) (c : List Nat)
    (hagree : ∀ a ∈ c, (h' a).map Node.data = (h a).map Node.data) :
    dataOf h' c = dataOf h c :=
  List.filterMap_congr hagree

theorem dataOf_append (h : Heap T) (c1 c2 : List Nat) :
    dataOf h (c1 ++ c2) = dataOf h c1 ++ dataOf h c2 := by
  simp [dataOf]

/-- Under a segment, dataOf reads one value per address. -/
theorem dataOf_length (h : Heap T) (prev nxt : Option Nat) (c : List Nat)
    (hs : isSeg h prev c nxt) : (dataOf h c).length = c.length := by
  induction c generalizing prev with
  | nil => rfl
  | cons a rest ih =>
    rw [isSeg_cons] at hs
    obtain ⟨nd, hnd, -, -, hrest⟩ := hs
    simp [dataOf, List.filterMap_cons, hnd]
    have := ih (some a) hrest
    simpa [dataOf] using this

/-- Appending a fresh node after the tail t preserves the chain shape:
the common heap transformation of push_back and of insert at end(). -/
theorem append_node_chain (m : Mem T) (l : list) (c' : List Nat) (t : Nat)
    (v : T) (ndT : Node T)
    (hseg : isSeg m.heap none (c' ++ [t]) none)
    (hhead : l.pHead = hd? (c' ++ [t]) none)
    (hlen : l.numElements = (c' ++ [t]).length)
    (hnodup : (c' ++ [t]).Nodup)
    (hbound : ∀ a ∈ c' ++ [t], a < m.nextAddr)
    (hndT : m.heap t = some ndT) :
    isChain
      { m with
          heap :=
            hset (hset (hset m.heap m.nextAddr ⟨v, none, none⟩)
              t { ndT with pNext := some m.nextAddr }) m.nextAddr
              { data := v, pNext := none, pPrev := some t },
          nextAddr := m.nextAddr + 1 }
      { l with pTail := some m.nextAddr, numElements := l.numElements + 1 }
      (c' ++ [t] ++ [m.nextAddr]) := by
  have htmem : t ∈ c' ++ [t] := by simp
  have htne : t ≠ m.nextAddr := Nat.ne_of_lt (hbound t htmem)
  obtain ⟨hseg1, hseg2⟩ := isSeg_split _ _ _ _ _ hseg
  rw [isSeg_cons] at hseg2
  obtain ⟨ndT0, hndT0, hTp, hTn, -⟩ := hseg2
  have hndE : ndT = ndT0 := by rw [hndT] at hndT0; exact Option.some.inj hndT0
  subst hndE
  set aN := m.nextAddr with haN
  set h3 := hset (hset (hset m.heap aN ⟨v, none, none⟩)
    t { ndT with pNext := some aN }) aN
    { data := v, pNext := none, pPrev := some t } with hh3
  have htnotc' : t ∉ c' := by
    have hd := List.nodup_append.mp hnodup
    exact fun ht' => hd.2.2 ht' (by simp)
  have hagree : ∀ b ∈ c', h3 b = m.heap b := by
    intro b hb
    have hbne1 : b ≠ aN := Nat.ne_of_lt (hbound b (by simp [hb]))
    have hbne2 : b ≠ t := fun hbt => htnotc' (hbt ▸ hb)
    rw [hh3, hset_other _ _ _ _ hbne1, hset_other _ _ _ _ hbne2,
      hset_other _ _ _ _ hbne1]
  refine ⟨?_, ?_, ?_, ?_, ?_, ?_⟩
  · rw [List.append_assoc]
    refine isSeg_append _ _ _ _ _ ?_ ?_
    · have : hd? ([t] ++ [aN]) none = some t := rfl
      rw [this]
      exact (isSeg_congr _ _ _ _ _ hagree).mpr hseg1
    · simp only [List.cons_append, List.nil_append]
      rw [isSeg_cons]
      refine ⟨{ ndT with pNext := some aN }, ?_, hTp, rfl, ?_⟩
      · rw [hh3, hset_other _ _ _ _ htne, hset_self]
      · rw [isSeg_cons]
        exact ⟨_, by rw [hh3, hset_self], rfl, rfl, trivial⟩
  · rw [hhead, List.append_assoc, hd?_append, hd?_append]
    simp [hd?]
  · show some m.nextAddr = lastO ((c' ++ [t]) ++ [m.nextAddr]) none
    rw [lastO_append, lastO_single]
  · simp [hlen]
  · rw [List.nodup_append]
    refine ⟨hnodup, List.nodup_singleton _, ?_⟩
    intro a ha hb
    simp at hb
    exact absurd (hbound a ha) (by simp [hb])
  · intro a ha
    rcases List.mem_append.mp ha with h1 | h1
    · exact Nat.lt_succ_of_lt (hbound a h1)
    · simp at h1; simp [h1]

/-- push_back consumes the fresh address and appends it to the chain;
the heap is unchanged away from the old tail and the fresh node, and no
stored value changes. -/
theorem push_back_spec (m : Mem T) (l : list) (c : List Nat) (v : T)
    (hc : isChain m l c) :
    ∃ m' l', push_back m l v = some (m', l') ∧
      isChain m' l' (c ++ [m.nextAddr]) ∧
      l'.numElements = l.numElements + 1 ∧
      m'.nextAddr = m.nextAddr + 1 ∧
      m'.leakedT = m.leakedT ∧
      (∀ a, a ∉ c → a ≠ m.nextAddr → m'.heap a = m.heap a) ∧
      (∀ a ∈ c, (m'.heap a).map Node.data = (m.heap a).map Node.data) ∧
      (m'.heap m.nextAddr).map Node.data = some v := by
  obtain ⟨hseg, hhead, htail, hlen, hnodup, hbound⟩ := hc
  rcases List.eq_nil_or_concat' c with rfl | ⟨c', t, rfl⟩
  · refine ⟨{ m with
               heap := hset m.heap m.nextAddr
                 { data := v, pNext := none, pPrev := none },
               nextAddr := m.nextAddr + 1 },
      { numElements := l.numElements + 1, pHead := some m.nextAddr,
        pTail := some m.nextAddr }, ?_, ?_⟩
    · simp only [push_back, Mem.alloc]
      rw [htail]; rfl
    · refine ⟨⟨?_, rfl, rfl, by simp [hlen], by simp, by simp⟩,
        rfl, rfl, rfl, ?_, ?_, ?_⟩
      · exact ⟨_, hset_self _ _ _, rfl, rfl, trivial⟩
      · intro a _ hne; exact hset_other _ _ _ _ hne
      · intro a ha; simp at ha
      · simp
  · -- c = c' ++ [t]
    have htmem : t ∈ c' ++ [t] := by simp
    have htlt : t < m.nextAddr := hbound t htmem
    have htne : t ≠ m.nextAddr := Nat.ne_of_lt htlt
    have htail' : l.pTail = some t := by
      rw [htail, lastO_append, lastO_single]
    obtain ⟨hseg1, hseg2⟩ := isSeg_split _ _ _ _ _ hseg
    rw [isSeg_cons] at hseg2
    obtain ⟨ndT, hndT, hTp, hTn, -⟩ := hseg2
    simp only [hd?_nil] at hTn
    -- evaluate push_back
    have hm1T : hset m.heap m.nextAddr ⟨v, none, none⟩ t = some ndT := by
      rw [hset_other _ _ _ _ htne]; exact hndT
    have hstep : push_back m l v =
        some ({ m with
                  heap := hset (hset (hset m.heap m.nextAddr ⟨v, none, none⟩)
                    t { ndT with pNext := some m.nextAddr }) m.nextAddr
                    { data := v, pNext := none, pPrev := some t },
                  nextAddr := m.nextAddr + 1 },
              { l with pTail := some m.nextAddr,
                       numElements := l.numElements + 1 }) := by
      simp only [push_back, Mem.alloc]
      rw [htail']
      simp only [hm1T]
      rw [hset_other _ _ _ _ (Ne.symm htne), hset_self]
    refine ⟨_, _, hstep,
      append_node_chain m l c' t v ndT hseg hhead hlen hnodup hbound hndT,
      rfl, rfl, rfl, ?_, ?_, ?_⟩
    · intro a hanc hane
      have hant : a ≠ t := fun h => hanc (h ▸ htmem)
      show hset (hset (hset m.heap m.nextAddr _) t _) m.nextAddr _ a = m.heap a
      rw [hset_other _ _ _ _ hane, hset_other _ _ _ _ hant,
        hset_other _ _ _ _ hane]
    · intro a ha
      by_cases hat : a = t
      · subst hat
        show (hset (hset (hset m.heap m.nextAddr _) a _) m.nextAddr _ a).map _ = _
        rw [hset_other _ _ _ _ htne, hset_self, hndT]
        rfl
      · have hane : a ≠ m.nextAddr := Nat.ne_of_lt (hbound a ha)
        show (hset (hset (hset m.heap m.nextAddr _) t _) m.nextAddr _ a).map _ = _
        rw [hset_other _ _ _ _ hane, hset_other _ _ _ _ hat,
          hset_other _ _ _ _ hane]
    · show (hset (hset (hset m.heap m.nextAddr _) t _) m.nextAddr _ m.nextAddr).map _ = _
      rw [hset_self]
      rfl

theorem hd?_ne (c : List Nat) (x y : Option Nat) (hc : c ≠ []) :
    hd? c x = hd? c y := by
  cases c with
  | nil => exact absurd rfl hc
  | cons a rest => rfl

theorem lastO_ne (c : List Nat) (x y : Option Nat) (hc : c ≠ []) :
    lastO c x = lastO c y := by
  cases hg : c.getLast? with
  | none => rw [List.getLast?_eq_none_iff] at hg; exact absurd hg hc
  | some a => simp [lastO, hg]

/-- push_front consumes the fresh address and prepends it to the chain. -/
theorem push_front_spec (m : Mem T) (l : list) (c : List Nat) (v : T)
    (hc : isChain m l c) :
    ∃ m' l', push_front m l v = some (m', l') ∧
      isChain m' l' (m.nextAddr :: c) ∧
      l'.numElements = l.numElements + 1 ∧
      m'.nextAddr = m.nextAddr + 1 := by
  obtain ⟨hseg, hhead, htail, hlen, hnodup, hbound⟩ := hc
  cases c with
  | nil =>
    refine ⟨{ m with
               heap := hset m.heap m.nextAddr
                 { data := v, pNext := none, pPrev := none },
               nextAddr := m.nextAddr + 1 },
      { numElements := l.numElements + 1, pHead := some m.nextAddr,
        pTail := some m.nextAddr }, ?_, ?_, rfl, rfl⟩
    · simp only [push_front, Mem.alloc]
      rw [hhead]; rfl
    · refine ⟨⟨_, hset_self _ _ _, rfl, rfl, trivial⟩,
        rfl, rfl, by simp [hlen], by simp, by simp⟩
  | cons a0 rest =>
    have hhead' : l.pHead = some a0 := hhead
    have ha0lt : a0 < m.nextAddr := hbound a0 (by simp)
    have ha0ne : a0 ≠ m.nextAddr := Nat.ne_of_lt ha0lt
    rw [isSeg_cons] at hseg
    obtain ⟨ndH, hndH, hHp, hHn, hrest⟩ := hseg
    have hm1H : hset m.heap m.nextAddr ⟨v, none, none⟩ a0 = some ndH := by
      rw [hset_other _ _ _ _ ha0ne]; exact hndH
    have hstep : push_front m l v =
        some ({ m with
                  heap := hset (hset (hset m.heap m.nextAddr ⟨v, none, none⟩)
                    a0 { ndH with pPrev := some m.nextAddr }) m.nextAddr
                    { data := v, pNext := some a0, pPrev := none },
                  nextAddr := m.nextAddr + 1 },
              { l with pHead := some m.nextAddr,
                       numElements := l.numElements + 1 }) := by
      simp only [push_front, Mem.alloc]
      rw [hhead']
      simp only [hm1H]
      rw [hset_other _ _ _ _ (Ne.symm ha0ne), hset_self]
    refine ⟨_, _, hstep, ?_, rfl, rfl⟩
    set aN := m.nextAddr with haN
    set h3 := hset (hset (hset m.heap aN ⟨v, none, none⟩)
      a0 { ndH with pPrev := some aN }) aN
      { data := v, pNext := some a0, pPrev := none } with hh3
    have hnodup' := List.nodup_cons.mp hnodup
    have hagree : ∀ b ∈ rest, h3 b = m.heap b := by
      intro b hb
      have hbne1 : b ≠ aN := Nat.ne_of_lt (hbound b (by simp [hb]))
      have hbne2 : b ≠ a0 := fun hbe => hnodup'.1 (hbe ▸ hb)
      rw [hh3, hset_other _ _ _ _ hbne1, hset_other _ _ _ _ hbne2,
        hset_other _ _ _ _ hbne1]
    refine ⟨?_, rfl, ?_, by simp [hlen], ?_, ?_⟩
    · rw [isSeg_cons]
      refine ⟨{ data := v, pNext := some a0, pPrev := none }, ?_, rfl, rfl, ?_⟩
      · show h3 aN = some { data := v, pNext := some a0, pPrev := none }
        rw [hh3, hset_self]
      · rw [isSeg_cons]
        refine ⟨{ ndH with pPrev := some aN }, ?_, rfl, hHn, ?_⟩
        · show h3 a0 = some { ndH with pPrev := some aN }
          rw [hh3, hset_other _ _ _ _ ha0ne, hset_self]
        · exact (isSeg_congr _ _ _ _ _ hagree).mpr hrest
    · rw [htail, lastO_cons, lastO_cons (c := a0 :: rest), lastO_cons]
    · rw [List.nodup_cons]
      refine ⟨?_, hnodup⟩
      intro hmem
      exact absurd (hbound aN hmem) (by simp)
    · intro a ha
      rcases List.mem_cons.mp ha with h1 | h1
      · simp [h1]
      · exact Nat.lt_succ_of_lt (hbound a h1)

/-- pop_back on an empty (null-tail) list does nothing. -/
theorem pop_back_nil (m : Mem T) (l : list) (h : l.pTail = none) :
    pop_back m l = some (m, l) := by
  simp [pop_back, h]

/-- pop_back on a non-empty chain deletes the tail node and shortens
the chain by one. -/
theorem pop_back_concat (m : Mem T) (l : list) (c' : List Nat) (t : Nat)
    (hc : isChain m l (c' ++ [t])) :
    ∃ m' l', pop_back m l = some (m', l') ∧
      isChain m' l' c' ∧
      l'.numElements = l.numElements - 1 ∧
      m'.nextAddr = m.nextAddr ∧
      m'.heap t = none := by
  obtain ⟨hseg, hhead, htail, hlen, hnodup, hbound⟩ := hc
  have htail' : l.pTail = some t := by rw [htail, lastO_append, lastO_single]
  obtain ⟨hseg1, hseg2⟩ := isSeg_split _ _ _ _ _ hseg
  rw [isSeg_cons] at hseg2
  obtain ⟨ndT, hndT, hTp, hTn, -⟩ := hseg2
  have htnotc' : t ∉ c' := by
    have hd := List.nodup_append.mp hnodup
    exact fun ht' => hd.2.2 ht' (by simp)
  rcases List.eq_nil_or_concat' c' with rfl | ⟨c'', p, rfl⟩
  · -- singleton list: head and tail both reset to null
    have hTp' : ndT.pPrev = none := by rwa [lastO_nil] at hTp
    refine ⟨{ m with heap := hdel m.heap t },
      { numElements := l.numElements - 1, pHead := none, pTail := none },
      ?_, ?_, rfl, rfl, hdel_self _ _⟩
    · simp only [pop_back, htail', hndT, hTp']
    · exact ⟨trivial, rfl, rfl, by simp [hlen], List.nodup_nil, by simp⟩
  · -- the node before t becomes the tail
    have hTp' : ndT.pPrev = some p := by
      rwa [lastO_append, lastO_single] at hTp
    obtain ⟨hsegA, hsegB⟩ := isSeg_split _ _ _ _ _ hseg1
    rw [isSeg_cons] at hsegB
    obtain ⟨ndP, hndP, hPp, hPn, -⟩ := hsegB
    have hpt : p ≠ t := by
      intro he; exact htnotc' (he ▸ (by simp : p ∈ c'' ++ [p]))
    have hpnotc'' : p ∉ c'' := by
      have hd := List.nodup_append.mp (List.nodup_append.mp hnodup).1
      exact fun hp' => hd.2.2 hp' (by simp)
    have hstep : pop_back m l =
        some ({ m with heap := hdel (hset m.heap p { ndP with pNext := none }) t },
              { l with pTail := some p, numElements := l.numElements - 1 }) := by
      simp only [pop_back, htail', hndT, hTp', hndP]
    refine ⟨_, _, hstep, ?_, rfl, rfl, hdel_self _ _⟩
    set h2 := hdel (hset m.heap p { ndP with pNext := none }) t with hh2
    have hagree : ∀ b ∈ c'', h2 b = m.heap b := by
      intro b hb
      have hbt : b ≠ t := fun he => htnotc' (he ▸ (by simp [hb] : b ∈ c'' ++ [p]))
      have hbp : b ≠ p := fun he => hpnotc'' (he ▸ hb)
      rw [hh2, hdel_other _ _ _ hbt, hset_other _ _ _ _ hbp]
    refine ⟨?_, ?_, ?_, ?_, (List.nodup_append.mp hnodup).1, ?_⟩
    · refine isSeg_append _ _ _ _ _ ?_ ?_
      · rw [hd?_cons]
        exact (isSeg_congr _ _ _ _ _ hagree).mpr
          (by rwa [hd?_cons] at hsegA)
      · rw [isSeg_cons]
        refine ⟨{ ndP with pNext := none }, ?_, hPp, rfl, trivial⟩
        show h2 p = some { ndP with pNext := none }
        rw [hh2, hdel_other _ _ _ hpt, hset_self]
    · rw [hhead, hd?_append]
      exact hd?_ne _ _ _ (by simp)
    · show some p = lastO (c'' ++ [p]) none
      rw [lastO_append, lastO_single]
    · rw [hlen]; simp
    · intro a ha
      refine hbound a ?_
      rcases List.mem_append.mp ha with h1 | h1
      · simp [h1]
      · simp at h1; simp [h1]

/-- pop_front on an empty (null-head) list does nothing. -/
theorem pop_front_nil (m : Mem T) (l : list) (h : l.pHead = none) :
    pop_front m l = some (m, l) := by
  simp [pop_front, h]

/-- pop_front on a non-empty chain deletes the head node and shortens
the chain by one. -/
theorem pop_front_cons (m : Mem T) (l : list) (a0 : Nat) (rest : List Nat)
    (hc : isChain m l (a0 :: rest)) :
    ∃ m' l', pop_front m l = some (m', l') ∧
      isChain m' l' rest ∧
      l'.numElements = l.numElements - 1 ∧
      m'.nextAddr = m.nextAddr ∧
      m'.heap a0 = none := by
  obtain ⟨hseg, hhead, htail, hlen, hnodup, hbound⟩ := hc
  have hhead' : l.pHead = some a0 := hhead
  rw [isSeg_cons] at hseg
  obtain ⟨ndH, hndH, hHp, hHn, hrest⟩ := hseg
  have hnodup' := List.nodup_cons.mp hnodup
  cases rest with
  | nil =>
    have hHn' : ndH.pNext = none := hHn
    refine ⟨{ m with heap := hdel m.heap a0 },
      { numElements := l.numElements - 1, pHead := none, pTail := none },
      ?_, ?_, rfl, rfl, hdel_self _ _⟩
    · simp only [pop_front, hhead', hndH, hHn']
    · exact ⟨trivial, rfl, rfl, by simp [hlen], List.nodup_nil, by simp⟩
  | cons a1 rest' =>
    have hHn' : ndH.pNext = some a1 := hHn
    rw [isSeg_cons] at hrest
    obtain ⟨nd1, hnd1, h1p, h1n, hrest'⟩ := hrest
    have h01 : a0 ≠ a1 := fun he => hnodup'.1 (he ▸ (by simp))
    have ha0r' : a0 ∉ rest' := fun hr => hnodup'.1 (by simp [hr])
    have ha1r' : a1 ∉ rest' := (List.nodup_cons.mp hnodup'.2).1
    have hstep : pop_front m l =
        some ({ m with heap := hdel (hset m.heap a1 { nd1 with pPrev := none }) a0 },
              { l with pHead := some a1, numElements := l.numElements - 1 }) := by
      simp only [pop_front, hhead', hndH, hHn', hnd1]
    refine ⟨_, _, hstep, ?_, rfl, rfl, hdel_self _ _⟩
    set h2 := hdel (hset m.heap a1 { nd1 with pPrev := none }) a0 with hh2
    have hagree : ∀ b ∈ rest', h2 b = m.heap b := by
      intro b hb
      have hb0 : b ≠ a0 := fun he => ha0r' (he ▸ hb)
      have hb1 : b ≠ a1 := fun he => ha1r' (he ▸ hb)
      rw [hh2, hdel_other _ _ _ hb0, hset_other _ _ _ _ hb1]
    refine ⟨?_, rfl, ?_, ?_, hnodup'.2, ?_⟩
    · rw [isSeg_cons]
      refine ⟨{ nd1 with pPrev := none }, ?_, rfl, h1n, ?_⟩
      · show h2 a1 = some { nd1 with pPrev := none }
        rw [hh2, hdel_other _ _ _ (Ne.symm h01), hset_self]
      · exact (isSeg_congr _ _ _ _ _ hagree).mpr hrest'
    · rw [htail, lastO_cons]
      exact lastO_ne _ _ _ (by simp)
    · rw [hlen]; simp
    · intro a ha
      exact hbound a (by simp [ha])

/-- erase at the past-the-end iterator does nothing and returns end(). -/
theorem erase_none (m : Mem T) (l : list) :
    erase m l none = some (m, l, none) := rfl

/-- erase at a node of the chain unlinks and deletes exactly that node
and returns an iterator to the node that followed it. -/
theorem erase_spec (m : Mem T) (l : list) (c1 c2 : List Nat) (aDel : Nat)
    (hc : isChain m l (c1 ++ aDel :: c2)) :
    ∃ m' l', erase m l (some aDel) = some (m', l', hd? c2 none) ∧
      isChain m' l' (c1 ++ c2) ∧
      l'.numElements = l.numElements - 1 ∧
      m'.nextAddr = m.nextAddr ∧
      m'.heap aDel = none := by
  obtain ⟨hseg, hhead, htail, hlen, hnodup, hbound⟩ := hc
  obtain ⟨hseg1, hseg2⟩ := isSeg_split _ _ _ _ _ hseg
  rw [isSeg_cons] at hseg2
  obtain ⟨nd0, hnd0, h0p, h0n, hsegc2⟩ := hseg2
  rw [hd?_cons] at hseg1
  have hnd := List.nodup_append.mp hnodup
  have hnDel2 := List.nodup_cons.mp hnd.2.1
  have haDel1 : aDel ∉ c1 := fun hmem => hnd.2.2 hmem (by simp)
  rcases List.eq_nil_or_concat' c1 with rfl | ⟨c1', aPrev, rfl⟩
  · -- deleting the head node
    have h0p' : nd0.pPrev = none := by rwa [lastO_nil] at h0p
    cases c2 with
    | nil =>
      -- sole node: head and tail reset to null
      have h0n' : nd0.pNext = none := h0n
      refine ⟨{ m with heap := hdel m.heap aDel },
        { numElements := l.numElements - 1, pHead := none, pTail := none },
        ?_, ?_, rfl, rfl, hdel_self _ _⟩
      · simp only [erase, hnd0, h0p', h0n', hd?_nil]
      · exact ⟨trivial, rfl, rfl, by simp [hlen], List.nodup_nil, by simp⟩
    | cons aNext c2' =>
      -- the next node becomes the head
      have h0n' : nd0.pNext = some aNext := h0n
      rw [isSeg_cons] at hsegc2
      obtain ⟨ndN, hndN, hNp, hNn, hsegc2'⟩ := hsegc2
      have hDelNext : aDel ≠ aNext := fun he => hnDel2.1 (he ▸ (by simp))
      have hNextr' : aNext ∉ c2' := (List.nodup_cons.mp hnDel2.2).1
      have hDelr' : aDel ∉ c2' := fun hmem => hnDel2.1 (by simp [hmem])
      refine ⟨{ m with
                 heap := hdel (hset m.heap aNext { ndN with pPrev := nd0.pPrev }) aDel },
        { l with pHead := some aNext, numElements := l.numElements - 1 },
        ?_, ?_, rfl, rfl, hdel_self _ _⟩
      · simp only [erase, hnd0, h0p', h0n', hndN,
          hset_other _ _ _ _ hDelNext, hd?_cons]
      · set h2 := hdel (hset m.heap aNext { ndN with pPrev := nd0.pPrev }) aDel with hh2
        have hagree : ∀ b ∈ c2', h2 b = m.heap b := by
          intro b hb
          have hb0 : b ≠ aDel := fun he => hDelr' (he ▸ hb)
          have hb1 : b ≠ aNext := fun he => hNextr' (he ▸ hb)
          rw [hh2, hdel_other _ _ _ hb0, hset_other _ _ _ _ hb1]
        refine ⟨?_, rfl, ?_, by simp [hlen], by simpa using hnDel2.2, ?_⟩
        · rw [List.nil_append, isSeg_cons]
          refine ⟨{ ndN with pPrev := nd0.pPrev }, ?_, ?_, hNn, ?_⟩
          · show h2 aNext = some { ndN with pPrev := nd0.pPrev }
            rw [hh2, hdel_other _ _ _ (Ne.symm hDelNext), hset_self]
          · simp [h0p']
          · exact (isSeg_congr _ _ _ _ _ hagree).mpr hsegc2'
        · rw [htail, List.nil_append, lastO_cons]
          exact lastO_ne _ _ _ (by simp)
        · intro a ha
          exact hbound a (by simp [List.mem_cons.mp ha])
  · -- c1 ends in aPrev, the node just before aDel
    have h0p' : nd0.pPrev = some aPrev := by
      rwa [lastO_append, lastO_single] at h0p
    obtain ⟨hsegA, hsegB⟩ := isSeg_split _ _ _ _ _ hseg1
    rw [isSeg_cons] at hsegB
    obtain ⟨ndP, hndP, hPp, hPn, -⟩ := hsegB
    have hPrevMem : aPrev ∈ c1' ++ [aPrev] := by simp
    have hDelPrev : aDel ≠ aPrev := fun he => haDel1 (he ▸ hPrevMem)
    have hPrevc1' : aPrev ∉ c1' := by
      have hdp := List.nodup_append.mp hnd.1
      exact fun hp' => hdp.2.2 hp' (by simp)
    cases c2 with
    | nil =>
      -- deleting the tail node: aPrev becomes the tail
      have h0n' : nd0.pNext = none := h0n
      refine ⟨{ m with
                 heap := hdel (hset m.heap aPrev { ndP with pNext := nd0.pNext }) aDel },
        { l with pTail := some aPrev, numElements := l.numElements - 1 },
        ?_, ?_, rfl, rfl, hdel_self _ _⟩
      · simp only [erase, hnd0, h0p', hndP,
          hset_other _ _ _ _ hDelPrev, h0n', hd?_nil]
      · set h2 := hdel (hset m.heap aPrev { ndP with pNext := nd0.pNext }) aDel with hh2
        have hagree : ∀ b ∈ c1', h2 b = m.heap b := by
          intro b hb
          have hb0 : b ≠ aDel := fun he => haDel1 (he ▸ (by simp [hb]))
          have hb1 : b ≠ aPrev := fun he => hPrevc1' (he ▸ hb)
          rw [hh2, hdel_other _ _ _ hb0, hset_other _ _ _ _ hb1]
        refine ⟨?_, ?_, ?_, by simp [hlen], ?_, ?_⟩
        · rw [List.append_nil]
          refine isSeg_append _ _ _ _ _ ?_ ?_
          · rw [hd?_cons]
            exact (isSeg_congr _ _ _ _ _ hagree).mpr
              (by rwa [hd?_cons] at hsegA)
          · rw [isSeg_cons]
            refine ⟨{ ndP with pNext := nd0.pNext }, ?_, hPp, by simp [h0n'], trivial⟩
            show h2 aPrev = some { ndP with pNext := nd0.pNext }
            rw [hh2, hdel_other _ _ _ (Ne.symm hDelPrev), hset_self]
        · rw [hhead, List.append_nil, hd?_append]
          exact hd?_ne _ _ _ (by simp)
        · show some aPrev = lastO (c1' ++ [aPrev] ++ []) none
          rw [List.append_nil, lastO_append, lastO_single]
        · rw [List.append_nil]; exact hnd.1
        · intro a ha
          rw [List.append_nil] at ha
          refine hbound a ?_
          rcases List.mem_append.mp ha with h1 | h1
          · simp [h1]
          · simp at h1; simp [h1]
    | cons aNext c2' =>
      -- deleting a middle node: aPrev and aNext are linked to each other
      have h0n' : nd0.pNext = some aNext := h0n
      rw [isSeg_cons] at hsegc2
      obtain ⟨ndN, hndN, hNp, hNn, hsegc2'⟩ := hsegc2
      have hDelNext : aDel ≠ aNext := fun he => hnDel2.1 (he ▸ (by simp))
      have hNextPrev : aNext ≠ aPrev := by
        intro he
        subst he
        exact hnd.2.2 hPrevMem (by simp)
      have hNextr' : aNext ∉ c2' := (List.nodup_cons.mp hnDel2.2).1
      have hDelr' : aDel ∉ c2' := fun hmem => hnDel2.1 (by simp [hmem])
      refine ⟨{ m with
                 heap := hdel (hset (hset m.heap aPrev { ndP with pNext := nd0.pNext })
                   aNext { ndN with pPrev := nd0.pPrev }) aDel },
        { l with numElements := l.numElements - 1 },
        ?_, ?_, rfl, rfl, hdel_self _ _⟩
      · simp only [erase, hnd0, h0p', hndP,
          hset_other _ _ _ _ hDelPrev, h0n',
          hset_other _ _ _ _ hNextPrev, hndN,
          hset_other _ _ _ _ hDelNext, hd?_cons]
      · set h2 := hdel (hset (hset m.heap aPrev { ndP with pNext := nd0.pNext })
          aNext { ndN with pPrev := nd0.pPrev }) aDel with hh2
        have hagree1 : ∀ b ∈ c1', h2 b = m.heap b := by
          intro b hb
          have hbmem : b ∈ c1' ++ [aPrev] := by simp [hb]
          have hb0 : b ≠ aDel := fun he => haDel1 (he ▸ hbmem)
          have hbN : b ≠ aNext := fun he => hnd.2.2 hbmem (by simp [he])
          have hbP : b ≠ aPrev := fun he => hPrevc1' (he ▸ hb)
          rw [hh2, hdel_other _ _ _ hb0, hset_other _ _ _ _ hbN,
            hset_other _ _ _ _ hbP]
        have hagree2 : ∀ b ∈ c2', h2 b = m.heap b := by
          intro b hb
          have hb0 : b ≠ aDel := fun he => hDelr' (he ▸ hb)
          have hbN : b ≠ aNext := fun he => hNextr' (he ▸ hb)
          have hbP : b ≠ aPrev :=
            fun he => hnd.2.2 (by simp [he] : b ∈ c1' ++ [aPrev]) (by simp [hb])
          rw [hh2, hdel_other _ _ _ hb0, hset_other _ _ _ _ hbN,
            hset_other _ _ _ _ hbP]
        refine ⟨?_, ?_, ?_, by simp [hlen], ?_, ?_⟩
        · rw [List.append_assoc]
          refine isSeg_append _ _ _ _ _ ?_ ?_
          · -- the prefix c1' still chains into aPrev
            rw [hd?_append, hd?_cons]
            exact (isSeg_congr _ _ _ _ _ hagree1).mpr
              (by rwa [hd?_cons] at hsegA)
          · -- aPrev, then aNext, then the old suffix
            rw [List.singleton_append, isSeg_cons]
            refine ⟨{ ndP with pNext := nd0.pNext }, ?_, hPp, by simp [h0n'], ?_⟩
            · show h2 aPrev = some { ndP with pNext := nd0.pNext }
              rw [hh2, hdel_other _ _ _ (Ne.symm hDelPrev),
                hset_other _ _ _ _ (Ne.symm hNextPrev), hset_self]
            · rw [isSeg_cons]
              refine ⟨{ ndN with pPrev := nd0.pPrev }, ?_, by simp [h0p'], hNn, ?_⟩
              · show h2 aNext = some { ndN with pPrev := nd0.pPrev }
                rw [hh2, hdel_other _ _ _ (Ne.symm hDelNext), hset_self]
              · exact (isSeg_congr _ _ _ _ _ hagree2).mpr hsegc2'
        · rw [hhead, hd?_append _ (aDel :: aNext :: c2'),
            hd?_append _ (aNext :: c2')]
          exact hd?_ne _ _ _ (by simp)
        · rw [htail, lastO_append _ (aDel :: aNext :: c2'),
            lastO_append _ (aNext :: c2'), lastO_cons, lastO_cons, lastO_cons]
        · rw [List.nodup_append] at hnodup ⊢
          refine ⟨hnodup.1, (List.nodup_cons.mp hnodup.2.1).2, ?_⟩
          intro a ha hb
          exact hnodup.2.2 ha (by simp [hb])
        · intro a ha
          refine hbound a ?_
          rcases List.mem_append.mp ha with h1 | h1
          · rcases List.mem_append.mp h1 with h2 | h2
            · simp [h2]
            · simp at h2; simp [h2]
          · simp at h1
            rcases h1 with h2 | h2
            · simp [h2]
            · simp [h2]

theorem hd?_of_ne_nil (c : List Nat) (nxt : Option Nat) (hc : c ≠ []) :
    ∃ a, hd? c nxt = some a := by
  cases c with
  | nil => exact absurd rfl hc
  | cons a rest => exact ⟨a, rfl⟩

/-- insert into an empty list ignores the position: the new node becomes
head and tail, numElements is set to 1, and begin() is returned. -/
theorem insert_empty_spec (m : Mem T) (l : list) (itp : Option Nat) (v : T)
    (hc : isChain m l []) :
    ∃ m', insert m l itp v =
        some (m', { numElements := 1, pHead := some m.nextAddr,
                    pTail := some m.nextAddr }, some m.nextAddr) ∧
      isChain m' { numElements := 1, pHead := some m.nextAddr,
                   pTail := some m.nextAddr } [m.nextAddr] ∧
      m'.nextAddr = m.nextAddr + 1 := by
  obtain ⟨hseg, hhead, htail, hlen, hnodup, hbound⟩ := hc
  refine ⟨{ m with
             heap := hset m.heap m.nextAddr
               { data := v, pNext := none, pPrev := none },
             nextAddr := m.nextAddr + 1 }, ?_, ?_, rfl⟩
  · simp only [insert, Mem.alloc, hhead, hd?_nil, if_true]
  · exact ⟨⟨_, hset_self _ _ _, rfl, rfl, trivial⟩, rfl, rfl, rfl,
      List.nodup_singleton _, by simp⟩

/-- insert at the past-the-end iterator on a non-empty list appends the
new node after the tail and returns an iterator to it. -/
theorem insert_end_spec (m : Mem T) (l : list) (c' : List Nat) (t : Nat)
    (v : T) (hc : isChain m l (c' ++ [t])) :
    ∃ m' l', insert m l none v = some (m', l', some m.nextAddr) ∧
      isChain m' l' (c' ++ [t] ++ [m.nextAddr]) ∧
      l'.numElements = l.numElements + 1 ∧
      m'.nextAddr = m.nextAddr + 1 := by
  obtain ⟨hseg, hhead, htail, hlen, hnodup, hbound⟩ := hc
  have htne : t ≠ m.nextAddr := Nat.ne_of_lt (hbound t (by simp))
  have htail' : l.pTail = some t := by rw [htail, lastO_append, lastO_single]
  obtain ⟨hseg1, hseg2⟩ := isSeg_split _ _ _ _ _ hseg
  rw [isSeg_cons] at hseg2
  obtain ⟨ndT, hndT, hTp, hTn, -⟩ := hseg2
  obtain ⟨a0, ha0⟩ := hd?_of_ne_nil (c' ++ [t]) none (by simp)
  have hph : l.pHead = some a0 := by rw [hhead, ha0]
  have hm1T : hset m.heap m.nextAddr ⟨v, none, none⟩ t = some ndT := by
    rw [hset_other _ _ _ _ htne]; exact hndT
  refine ⟨_, _, ?_,
    append_node_chain m l c' t v ndT hseg hhead hlen hnodup hbound hndT,
    rfl, rfl⟩
  simp only [insert, Mem.alloc]
  rw [hph, if_neg (Option.some_ne_none a0), if_pos trivial, htail']
  simp only [hm1T]
  rw [hset_other _ _ _ _ (Ne.symm htne), hset_self]

/-- insert immediately before the node aIt splices the fresh node
between the predecessor of aIt (or the head) and aIt itself, and
returns an iterator to the fresh node. -/
theorem insert_mid_spec (m : Mem T) (l : list) (c1 c2 : List Nat)
    (aIt : Nat) (v : T) (hc : isChain m l (c1 ++ aIt :: c2)) :
    ∃ m' l', insert m l (some aIt) v = some (m', l', some m.nextAddr) ∧
      isChain m' l' (c1 ++ m.nextAddr :: aIt :: c2) ∧
      l'.numElements = l.numElements + 1 ∧
      m'.nextAddr = m.nextAddr + 1 := by
  obtain ⟨hseg, hhead, htail, hlen, hnodup, hbound⟩ := hc
  obtain ⟨hseg1, hseg2⟩ := isSeg_split _ _ _ _ _ hseg
  rw [isSeg_cons] at hseg2
  obtain ⟨ndIt, hndIt, hItp, hItn, hsegc2⟩ := hseg2
  rw [hd?_cons] at hseg1
  set aN := m.nextAddr with haN
  have hItaN : aIt ≠ aN := Nat.ne_of_lt (hbound aIt (by simp))
  have hnd := List.nodup_append.mp hnodup
  have hnIt2 := List.nodup_cons.mp hnd.2.1
  have haIt1 : aIt ∉ c1 := fun hmem => hnd.2.2 hmem (by simp)
  obtain ⟨a0, ha0⟩ := hd?_of_ne_nil (c1 ++ aIt :: c2) none (by simp)
  have hph : l.pHead = some a0 := by rw [hhead, ha0]
  rcases List.eq_nil_or_concat' c1 with rfl | ⟨c1', aPrev, rfl⟩
  · -- aIt is the head: the fresh node becomes the new head
    have hItp' : ndIt.pPrev = none := by rwa [lastO_nil] at hItp
    refine ⟨{ m with
               heap :=
                 hset (hset (hset m.heap aN ⟨v, none, none⟩) aN
                   { data := v, pNext := some aIt, pPrev := none }) aIt
                   { ndIt with pPrev := some aN },
               nextAddr := aN + 1 },
      { l with pHead := some aN, numElements := l.numElements + 1 },
      ?_, ?_, rfl, rfl⟩
    · simp only [insert, insertFinish, Mem.alloc]
      rw [hph, if_neg (Option.some_ne_none a0),
        if_neg (Option.some_ne_none aIt)]
      simp only [hset_other _ _ _ _ hItaN, hndIt, hItp', hset_self]
    · set H := hset (hset (hset m.heap aN ⟨v, none, none⟩) aN
        { data := v, pNext := some aIt, pPrev := none }) aIt
        { ndIt with pPrev := some aN } with hH
      have hagree : ∀ b ∈ c2, H b = m.heap b := by
        intro b hb
        have hb1 : b ≠ aIt := fun he => hnIt2.1 (he ▸ hb)
        have hb2 : b ≠ aN := Nat.ne_of_lt (hbound b (by simp [hb]))
        rw [hH, hset_other _ _ _ _ hb1, hset_other _ _ _ _ hb2,
          hset_other _ _ _ _ hb2]
      refine ⟨?_, rfl, ?_, by simp [hlen], ?_, ?_⟩
      · rw [List.nil_append, isSeg_cons]
        refine ⟨{ data := v, pNext := some aIt, pPrev := none }, ?_, rfl, rfl, ?_⟩
        · show H aN = _
          rw [hH, hset_other _ _ _ _ (Ne.symm hItaN), hset_self]
        · rw [isSeg_cons]
          refine ⟨{ ndIt with pPrev := some aN }, ?_, rfl, hItn, ?_⟩
          · show H aIt = _
            rw [hH, hset_self]
          · exact (isSeg_congr _ _ _ _ _ hagree).mpr hsegc2
      · rw [htail, List.nil_append, List.nil_append, lastO_cons,
          lastO_cons, lastO_cons]
      · rw [List.nil_append, List.nodup_cons]
        refine ⟨?_, hnd.2.1⟩
        intro hmem
        exact absurd (hbound aN (by simp [hmem])) (by simp)
      · intro a ha
        rw [List.nil_append] at ha
        rcases List.mem_cons.mp ha with h1 | h1
        · simp [h1]
        · exact Nat.lt_succ_of_lt (hbound a (by simp [h1]))
  · -- aPrev is the node before aIt: the fresh node goes between them
    have hItp' : ndIt.pPrev = some aPrev := by
      rwa [lastO_append, lastO_single] at hItp
    obtain ⟨hsegA, hsegB⟩ := isSeg_split _ _ _ _ _ hseg1
    rw [isSeg_cons] at hsegB
    obtain ⟨ndP, hndP, hPp, hPn, -⟩ := hsegB
    have hPrevMem : aPrev ∈ c1' ++ [aPrev] := by simp
    have hPrevaN : aPrev ≠ aN := Nat.ne_of_lt (hbound aPrev (by simp))
    have hItPrev : aIt ≠ aPrev := fun he => haIt1 (he ▸ hPrevMem)
    have hPrevc1' : aPrev ∉ c1' := by
      have hdp := List.nodup_append.mp hnd.1
      exact fun hp' => hdp.2.2 hp' (by simp)
    refine ⟨{ m with
               heap :=
                 hset (hset (hset (hset m.heap aN ⟨v, none, none⟩) aN
                   { data := v, pNext := some aIt, pPrev := some aPrev }) aPrev
                   { ndP with pNext := some aN }) aIt
                   { ndIt with pPrev := some aN },
               nextAddr := aN + 1 },
      { l with numElements := l.numElements + 1 },
      ?_, ?_, rfl, rfl⟩
    · simp only [insert, insertFinish, Mem.alloc]
      rw [hph, if_neg (Option.some_ne_none a0),
        if_neg (Option.some_ne_none aIt)]
      simp only [hset_other _ _ _ _ hItaN, hndIt, hItp',
        hset_other _ _ _ _ hPrevaN, hndP, hset_self,
        hset_other _ _ _ _ (Ne.symm hPrevaN),
        hset_other _ _ _ _ hItPrev]
    · set H := hset (hset (hset (hset m.heap aN ⟨v, none, none⟩) aN
        { data := v, pNext := some aIt, pPrev := some aPrev }) aPrev
        { ndP with pNext := some aN }) aIt
        { ndIt with pPrev := some aN } with hH
      have hagree1 : ∀ b ∈ c1', H b = m.heap b := by
        intro b hb
        have hbmem : b ∈ c1' ++ [aPrev] := by simp [hb]
        have hbIt : b ≠ aIt := fun he => haIt1 (he ▸ hbmem)
        have hbP : b ≠ aPrev := fun he => hPrevc1' (he ▸ hb)
        have hbN : b ≠ aN := Nat.ne_of_lt (hbound b (by simp [hb]))
        rw [hH, hset_other _ _ _ _ hbIt, hset_other _ _ _ _ hbP,
          hset_other _ _ _ _ hbN, hset_other _ _ _ _ hbN]
      have hagree2 : ∀ b ∈ c2, H b = m.heap b := by
        intro b hb
        have hbIt : b ≠ aIt := fun he => hnIt2.1 (he ▸ hb)
        have hbP : b ≠ aPrev :=
          fun he => hnd.2.2 (by simp [he] : b ∈ c1' ++ [aPrev]) (by simp [hb])
        have hbN : b ≠ aN := Nat.ne_of_lt (hbound b (by simp [hb]))
        rw [hH, hset_other _ _ _ _ hbIt, hset_other _ _ _ _ hbP,
          hset_other _ _ _ _ hbN, hset_other _ _ _ _ hbN]
      refine ⟨?_, ?_, ?_,
        by simp only [List.length_append, List.length_cons, hlen]; omega,
        ?_, ?_⟩
      · refine isSeg_append _ _ _ _ _ ?_ ?_
        · rw [hd?_cons]
          refine isSeg_append _ _ _ _ _ ?_ ?_
          · rw [hd?_cons]
            exact (isSeg_congr _ _ _ _ _ hagree1).mpr
              (by rwa [hd?_cons] at hsegA)
          · rw [isSeg_cons]
            refine ⟨{ ndP with pNext := some aN }, ?_, hPp, rfl, trivial⟩
            show H aPrev = _
            rw [hH, hset_other _ _ _ _ (Ne.symm hItPrev), hset_self]
        · rw [lastO_append, lastO_single, isSeg_cons]
          refine ⟨{ data := v, pNext := some aIt, pPrev := some aPrev },
            ?_, rfl, rfl, ?_⟩
          · show H aN = _
            rw [hH, hset_other _ _ _ _ (Ne.symm hItaN),
              hset_other _ _ _ _ (Ne.symm hPrevaN), hset_self]
          · rw [isSeg_cons]
            refine ⟨{ ndIt with pPrev := some aN }, ?_, rfl, hItn, ?_⟩
            · show H aIt = _
              rw [hH, hset_self]
            · exact (isSeg_congr _ _ _ _ _ hagree2).mpr hsegc2
      · rw [hhead, hd?_append _ (aIt :: c2), hd?_append _ (aN :: aIt :: c2)]
        exact hd?_ne _ _ _ (by simp)
      · rw [htail, lastO_append _ (aIt :: c2), lastO_append _ (aN :: aIt :: c2),
          lastO_cons, lastO_cons, lastO_cons]
      · rw [List.nodup_append]
        refine ⟨hnd.1, ?_, ?_⟩
        · rw [List.nodup_cons]
          refine ⟨?_, hnd.2.1⟩
          intro hmem
          exact absurd (hbound aN (by simp [List.mem_cons.mp hmem])) (by simp)
        · intro a ha hb
          rcases List.mem_cons.mp hb with h1 | h1
          · exact absurd (hbound a (List.mem_append_left _ ha)) (by simp [h1])
          · exact hnd.2.2 ha h1
      · intro a ha
        rcases List.mem_append.mp ha with h1 | h1
        · exact Nat.lt_succ_of_lt (hbound a (List.mem_append_left _ h1))
        · rcases List.mem_cons.mp h1 with h2 | h2
          · simp [h2]
          · exact Nat.lt_succ_of_lt (hbound a (List.mem_append_right _ h2))

/-- The iterator operator ++ applied n times starting from p: each step
executes p = p->pNext.  Stepping from the past-the-end iterator keeps
it past the end (in C++ that step is outside the contract). -/
def advance (h : Heap T) : Option Nat → Nat → Option Nat
  | p, 0 => p
  | none, _ + 1 => none
  | some a, n + 1 =>
    match h a with
    | none => none
    | some nd => advance h nd.pNext n

/-- The position reached by advancing begin() n times: the way client
code (and the unit tests) obtain an iterator into the list. -/
def iterAt (m : Mem T) (l : list) (n : Nat) : Option Nat :=
  advance m.heap l.pHead n

theorem advance_chain (h : Heap T) (prev : Option Nat) (c : List Nat)
    (hs : isSeg h prev c none) (n : Nat) :
    advance h (hd? c none) n = hd? (c.drop n) none := by
  induction c generalizing prev n with
  | nil => cases n <;> rfl
  | cons a rest ih =>
    rw [isSeg_cons] at hs
    obtain ⟨nd, hnd, -, hn, hrest⟩ := hs
    cases n with
    | zero => rfl
    | succ k =>
      rw [hd?_cons, List.drop_succ_cons]
      have hstep : advance h (some a) (k + 1) = advance h nd.pNext k := by
        simp only [advance, hnd]
      rw [hstep, hn]
      exact ih (some a) hrest k

theorem iterAt_chain (m : Mem T) (l : list) (c : List Nat) (n : Nat)
    (hc : isChain m l c) : iterAt m l n = hd? (c.drop n) none := by
  rw [iterAt, hc.2.1]
  exact advance_chain _ _ _ hc.1 n

/-- The addresses visited by repeatedly following pNext from p, with
fuel bounding the number of steps; none when fuel runs out or a node is
missing. -/
def walkNext (h : Heap T) : Nat → Option Nat → Option (List Nat)
  | _, none => some []
  | 0, some _ => none
  | fuel + 1, some a =>
    match h a with
    | none => none
    | some nd => (walkNext h fuel nd.pNext).map (fun r => a :: r)

/-- The addresses visited by repeatedly following pPrev from p. -/
def walkPrev (h : Heap T) : Nat → Option Nat → Option (List Nat)
  | _, none => some []
  | 0, some _ => none
  | fuel + 1, some a =>
    match h a with
    | none => none
    | some nd => (walkPrev h fuel nd.pPrev).map (fun r => a :: r)

/-- The data values visited by repeatedly following pNext from p. -/
def elemsWalk (h : Heap T) : Nat → Option Nat → Option (List T)
  | _, none => some []
  | 0, some _ => none
  | fuel + 1, some a =>
    match h a with
    | none => none
    | some nd => (elemsWalk h fuel nd.pNext).map (fun r => nd.data :: r)

theorem walkNext_chain (h : Heap T) (prev : Option Nat) (c : List Nat)
    (hs : isSeg h prev c none) :
    ∀ fuel, c.length ≤ fuel → walkNext h fuel (hd? c none) = some c := by
  induction c generalizing prev with
  | nil => intro fuel _; cases fuel <;> rfl
  | cons a rest ih =>
    rw [isSeg_cons] at hs
    obtain ⟨nd, hnd, -, hn, hrest⟩ := hs
    intro fuel hfuel
    cases fuel with
    | zero => simp at hfuel
    | succ k =>
      have hk : rest.length ≤ k := Nat.le_of_succ_le_succ hfuel
      rw [hd?_cons]
      show (match h a with
        | none => none
        | some nd => (walkNext h k nd.pNext).map (fun r => a :: r)) = some (a :: rest)
      simp only [hnd]
      rw [hn, ih (some a) hrest k hk]
      rfl

theorem walkPrev_chain (h : Heap T) (nxt : Option Nat) (c : List Nat)
    (hs : isSeg h none c nxt) :
    ∀ fuel, c.length ≤ fuel → walkPrev h fuel (lastO c none) = some c.reverse := by
  induction c using List.reverseRecOn generalizing nxt with
  | nil => intro fuel _; cases fuel <;> rfl
  | append_singleton c' t ih =>
    obtain ⟨hsA, hsB⟩ := isSeg_split _ _ _ _ _ hs
    rw [isSeg_cons] at hsB
    obtain ⟨nd, hnd, hp, -, -⟩ := hsB
    intro fuel hfuel
    rw [List.length_append, List.length_singleton] at hfuel
    cases fuel with
    | zero => simp at hfuel
    | succ k =>
      have hk : c'.length ≤ k := Nat.le_of_succ_le_succ hfuel
      rw [lastO_append, lastO_single]
      show (match h t with
        | none => none
        | some nd => (walkPrev h k nd.pPrev).map (fun r => t :: r)) =
          some (c' ++ [t]).reverse
      simp only [hnd]
      rw [hp]
      rw [ih (hd? [t] nxt) hsA k hk]
      simp

theorem elemsWalk_chain (h : Heap T) (prev : Option Nat) (c : List Nat)
    (hs : isSeg h prev c none) :
    ∀ fuel, c.length ≤ fuel →
      elemsWalk h fuel (hd? c none) = some (dataOf h c) := by
  induction c generalizing prev with
  | nil => intro fuel _; cases fuel <;> rfl
  | cons a rest ih =>
    rw [isSeg_cons] at hs
    obtain ⟨nd, hnd, -, hn, hrest⟩ := hs
    intro fuel hfuel
    cases fuel with
    | zero => simp at hfuel
    | succ k =>
      have hk : rest.length ≤ k := Nat.le_of_succ_le_succ hfuel
      rw [hd?_cons]
      show (match h a with
        | none => none
        | some nd => (elemsWalk h k nd.pNext).map (fun r => nd.data :: r)) =
          some (dataOf h (a :: rest))
      simp only [hnd]
      rw [hn, ih (some a) hrest k hk]
      show some (nd.data :: dataOf h rest) = some (dataOf h (a :: rest))
      simp [dataOf, List.filterMap_cons, hnd]

/-- Every adjacent pair of chain nodes is mutually linked. -/
theorem isSeg_zip_linked (h : Heap T) (prev nxt : Option Nat) (c : List Nat)
    (hs : isSeg h prev c nxt) :
    ∀ p ∈ c.zip c.tail, ∃ nda ndb, h p.1 = some nda ∧ h p.2 = some ndb ∧
      nda.pNext = some p.2 ∧ ndb.pPrev = some p.1 := by
  induction c generalizing prev with
  | nil => intro p hp; simp at hp
  | cons a rest ih =>
    rw [isSeg_cons] at hs
    obtain ⟨nd, hnd, -, hn, hrest⟩ := hs
    intro q hq
    cases rest with
    | nil => simp at hq
    | cons b rest2 =>
      have hrest' := hrest
      rw [isSeg_cons] at hrest'
      obtain ⟨ndb, hndb, hbp, -, -⟩ := hrest'
      rcases List.mem_cons.mp hq with h1 | h1
      · subst h1
        exact ⟨nd, ndb, hnd, hndb, hn, hbp⟩
      · exact ih (some a) hrest q h1

/-- One mutating call of the public interface.  A position for insert
or erase is the number of iterator increments from begin(); a position
at or past the count is the past-the-end iterator. -/
inductive Op (T : Type) where
  | pushFront (v : T)
  | pushBack (v : T)
  | popFront
  | popBack
  | insertCopy (n : Nat) (v : T)
  | insertMove (n : Nat) (v : T)
  | eraseAt (n : Nat)

/-- Execute one call (the iterator returned by insert and erase is
discarded by the driver). -/
def applyOp (m : Mem T) (l : list) : Op T → Option (Mem T × list)
  | .pushFront v => push_front m l v
  | .pushBack v => push_back m l v
  | .popFront => pop_front m l
  | .popBack => pop_back m l
  | .insertCopy n v =>
    match insert m l (iterAt m l n) v with
    | none => none
    | some (m', l', _) => some (m', l')
  | .insertMove n v =>
    match insert_move m l (iterAt m l n) v with
    | none => none
    | some (m', l', _) => some (m', l')
  | .eraseAt n =>
    match erase m l (iterAt m l n) with
    | none => none
    | some (m', l', _) => some (m', l')

/-- Execute a sequence of calls. -/
def runOps : List (Op T) → Mem T × list → Option (Mem T × list)
  | [], s => some s
  | op :: ops, (m, l) =>
    match applyOp m l op with
    | none => none
    | some s' => runOps ops s'

/-- Every single call succeeds on a well-formed list and leaves a
well-formed list. -/
theorem applyOp_wf (m : Mem T) (l : list) (op : Op T) (h : Wf m l) :
    ∃ m' l', applyOp m l op = some (m', l') ∧ Wf m' l' := by
  obtain ⟨c, hc⟩ := h
  cases op with
  | pushFront v =>
    obtain ⟨m', l', heq, hc', -⟩ := push_front_spec m l c v hc
    exact ⟨m', l', heq, _, hc'⟩
  | pushBack v =>
    obtain ⟨m', l', heq, hc', -⟩ := push_back_spec m l c v hc
    exact ⟨m', l', heq, _, hc'⟩
  | popFront =>
    cases c with
    | nil =>
      refine ⟨m, l, pop_front_nil m l hc.2.1, ⟨[], hc⟩⟩
    | cons a rest =>
      obtain ⟨m', l', heq, hc', -⟩ := pop_front_cons m l a rest hc
      exact ⟨m', l', heq, _, hc'⟩
  | popBack =>
    rcases List.eq_nil_or_concat' c with rfl | ⟨c', t, rfl⟩
    · exact ⟨m, l, pop_back_nil m l hc.2.2.1, ⟨[], hc⟩⟩
    · obtain ⟨m', l', heq, hc', -⟩ := pop_back_concat m l c' t hc
      exact ⟨m', l', heq, _, hc'⟩
  | insertCopy n v =>
    have hit := iterAt_chain m l c n hc
    cases hdrop : c.drop n with
    | nil =>
      rw [hdrop, hd?_nil] at hit
      rcases List.eq_nil_or_concat' c with rfl | ⟨c', t, rfl⟩
      · obtain ⟨m', heq, hc', -⟩ := insert_empty_spec m l (iterAt m l n) v hc
        refine ⟨m', _, ?_, _, hc'⟩
        simp only [applyOp, heq]
      · obtain ⟨m', l', heq, hc', -⟩ := insert_end_spec m l c' t v hc
        refine ⟨m', l', ?_, _, hc'⟩
        simp only [applyOp, hit, heq]
    | cons aIt c2 =>
      rw [hdrop, hd?_cons] at hit
      have hsplit : c.take n ++ aIt :: c2 = c := by
        rw [← hdrop]; exact List.take_append_drop n c
      rw [← hsplit] at hc
      obtain ⟨m', l', heq, hc', -⟩ := insert_mid_spec m l (c.take n) c2 aIt v hc
      refine ⟨m', l', ?_, _, hc'⟩
      simp only [applyOp, hit, heq]
  | insertMove n v =>
    exact ⟨m, l, rfl, ⟨c, hc⟩⟩
  | eraseAt n =>
    have hit := iterAt_chain m l c n hc
    cases hdrop : c.drop n with
    | nil =>
      rw [hdrop, hd?_nil] at hit
      refine ⟨m, l, ?_, ⟨c, hc⟩⟩
      simp only [applyOp, hit, erase_none]
    | cons aDel c2 =>
      rw [hdrop, hd?_cons] at hit
      have hsplit : c.take n ++ aDel :: c2 = c := by
        rw [← hdrop]; exact List.take_append_drop n c
      rw [← hsplit] at hc
      obtain ⟨m', l', heq, hc', -⟩ := erase_spec m l (c.take n) c2 aDel hc
      refine ⟨m', l', ?_, _, hc'⟩
      simp only [applyOp, hit, heq]

/-- A whole sequence of calls succeeds on a well-formed list and leaves
a well-formed list. -/
theorem runOps_wf (ops : List (Op T)) (m : Mem T) (l : list) (h : Wf m l) :
    ∃ m' l', runOps ops (m, l) = some (m', l') ∧ Wf m' l' := by
  induction ops generalizing m l with
  | nil => exact ⟨m, l, rfl, h⟩
  | cons op ops ih =>
    obtain ⟨m1, l1, heq1, hwf1⟩ := applyOp_wf m l op h
    obtain ⟨m', l', heq2, hwf2⟩ := ih m1 l1 hwf1
    refine ⟨m', l', ?_, hwf2⟩
    simp only [runOps, heq1]
    exact heq2

theorem lastO_eq_none_iff (c : List Nat) : lastO c none = none ↔ c = [] := by
  cases hg : c.getLast? with
  | none =>
    rw [List.getLast?_eq_none_iff] at hg
    simp [hg, lastO]
  | some a =>
    have hne : c ≠ [] := by
      intro he; subst he; simp at hg
    simp [lastO, hg, hne]

/-- The observable structural invariants claimed for the container: the
forward walk from pHead and the backward walk from pTail both succeed
within numElements steps, visiting exactly numElements nodes, one walk
the reverse of the other; pHead and pTail are null exactly when the
count is 0; every adjacent pair of nodes is mutually linked. -/
def StructOk (m : Mem T) (l : list) : Prop :=
  ∃ c, walkNext m.heap l.numElements l.pHead = some c ∧
    walkPrev m.heap l.numElements l.pTail = some c.reverse ∧
    c.length = l.numElements ∧
    (l.pHead = none ↔ l.numElements = 0) ∧
    (l.pTail = none ↔ l.numElements = 0) ∧
    ∀ p ∈ c.zip c.tail, ∃ nda ndb, m.heap p.1 = some nda ∧
      m.heap p.2 = some ndb ∧ nda.pNext = some p.2 ∧ ndb.pPrev = some p.1

theorem wf_structOk (m : Mem T) (l : list) (h : Wf m l) : StructOk m l := by
  obtain ⟨c, hseg, hhead, htail, hlen, hnodup, hbound⟩ := h
  refine ⟨c, ?_, ?_, hlen.symm, ?_, ?_, isSeg_zip_linked _ _ _ _ hseg⟩
  · rw [hhead, hlen]
    exact walkNext_chain _ _ _ hseg _ le_rfl
  · rw [htail, hlen]
    exact walkPrev_chain _ _ _ hseg _ le_rfl
  · rw [hhead, hlen]
    cases c <;> simp [hd?]
  · rw [htail, hlen]
    rw [lastO_eq_none_iff]
    cases c <;> simp

/-- The clear loop deletes exactly the nodes of the chain it walks. -/
theorem clearLoop_chain (c : List Nat) :
    ∀ (h : Heap T) (prev : Option Nat), isSeg h prev c none → c.Nodup →
    ∀ fuel, c.length ≤ fuel →
      ∃ h', clearLoop T fuel h (hd? c none) = some h' ∧
        (∀ a ∈ c, h' a = none) ∧ (∀ a, a ∉ c → h' a = h a) := by
  induction c with
  | nil =>
    intro h prev _ _ fuel _
    exact ⟨h, by cases fuel <;> rfl, by simp, fun a _ => rfl⟩
  | cons a rest ih =>
    intro h prev hs hnodup fuel hfuel
    rw [isSeg_cons] at hs
    obtain ⟨nd, hnd, -, hn, hrest⟩ := hs
    cases fuel with
    | zero => simp at hfuel
    | succ k =>
      have hk : rest.length ≤ k := Nat.le_of_succ_le_succ hfuel
      have hanr : a ∉ rest := (List.nodup_cons.mp hnodup).1
      have hrest' : isSeg (hdel h a) (some a) rest none :=
        (isSeg_congr _ _ _ _ _
          (fun b hb => hdel_other h a b (fun he => hanr (he ▸ hb)))).mpr hrest
      obtain ⟨h', heq, hgone, hkeep⟩ :=
        ih (hdel h a) (some a) hrest' (List.nodup_cons.mp hnodup).2 k hk
      refine ⟨h', ?_, ?_, ?_⟩
      · rw [hd?_cons]
        show (match h a with
          | none => none
          | some nd => clearLoop T k (hdel h a) nd.pNext) = some h'
        simp only [hnd]
        rw [hn]
        exact heq
      · intro b hb
        rcases List.mem_cons.mp hb with h1 | h1
        · subst h1
          rw [hkeep b hanr, hdel_self]
        · exact hgone b h1
      · intro b hb
        have hba : b ≠ a := fun he => hb (by simp [he])
        have hbr : b ∉ rest := fun hr => hb (by simp [hr])
        rw [hkeep b hbr, hdel_other _ _ _ hba]

/-- clear succeeds on a well-formed list, deletes exactly its nodes and
resets the members to the empty state. -/
theorem clear_spec (m : Mem T) (l : list) (c : List Nat)
    (hc : isChain m l c) :
    ∃ m', clear m l =
        some (m', { numElements := 0, pHead := none, pTail := none }) ∧
      (∀ a ∈ c, m'.heap a = none) ∧ (∀ a, a ∉ c → m'.heap a = m.heap a) ∧
      m'.nextAddr = m.nextAddr ∧ m'.leakedT = m.leakedT ∧
      isChain m' { numElements := 0, pHead := none, pTail := none } [] := by
  obtain ⟨hseg, hhead, htail, hlen, hnodup, hbound⟩ := hc
  obtain ⟨h', heq, h1, h2⟩ :=
    clearLoop_chain c m.heap none hseg hnodup l.numElements (le_of_eq hlen.symm)
  refine ⟨{ m with heap := h' }, ?_, h1, h2, rfl, rfl, ?_⟩
  · simp only [clear, hhead, heq]
  · exact ⟨trivial, rfl, rfl, rfl, List.nodup_nil, by simp⟩

/-- The copy loop pushes the data of the walked source chain onto the
destination, touching nothing but the destination chain and the fresh
nodes it allocates. -/
theorem copyLoop_spec (cs : List Nat) :
    ∀ (m : Mem T) (dst : list) (d : List Nat) (prev : Option Nat),
    isSeg m.heap prev cs none →
    (∀ a ∈ cs, a < m.nextAddr) →
    isChain m dst d →
    (∀ a ∈ cs, a ∉ d) →
    ∀ fuel, cs.length ≤ fuel →
    ∃ m' dst' dnew,
      copyLoop T fuel m dst (hd? cs none) = some (m', dst') ∧
      isChain m' dst' (d ++ dnew) ∧
      (∀ a ∈ dnew, m.nextAddr ≤ a) ∧
      (∀ a, a ∉ d → a ∉ dnew → m'.heap a = m.heap a) ∧
      (∀ a ∈ d, (m'.heap a).map Node.data = (m.heap a).map Node.data) ∧
      m.nextAddr ≤ m'.nextAddr ∧
      dataOf m'.heap (d ++ dnew) = dataOf m.heap d ++ dataOf m.heap cs ∧
      dst'.numElements = dst.numElements + cs.length := by
  induction cs with
  | nil =>
    intro m dst d prev _ _ hcd _ fuel _
    refine ⟨m, dst, [], by cases fuel <;> rfl, by simpa using hcd,
      by simp, fun a _ _ => rfl, fun a _ => rfl, le_rfl, by simp [dataOf], by simp⟩
  | cons a cs' ih =>
    intro m dst d prev hs hbnd hcd hdisj fuel hfuel
    rw [isSeg_cons] at hs
    obtain ⟨nd, hnd, -, hn, hrest⟩ := hs
    cases fuel with
    | zero => simp at hfuel
    | succ k =>
      have hk : cs'.length ≤ k := Nat.le_of_succ_le_succ hfuel
      have halt : a < m.nextAddr := hbnd a (by simp)
      have hand : a ∉ d := hdisj a (by simp)
      obtain ⟨m1, dst1, hpbeq, hchain1, hnum1, hnx1, -, hframe1, hdata1, hnew1⟩ :=
        push_back_spec m dst d nd.data hcd
      have hsrc1 : ∀ b ∈ a :: cs', m1.heap b = m.heap b := by
        intro b hb
        exact hframe1 b (hdisj b hb) (Nat.ne_of_lt (hbnd b hb))
      have hrest1 : isSeg m1.heap (some a) cs' none :=
        (isSeg_congr _ _ _ _ _
          (fun b hb => hsrc1 b (by simp [hb]))).mpr hrest
      have hbnd1 : ∀ b ∈ cs', b < m1.nextAddr := by
        intro b hb
        rw [hnx1]
        exact Nat.lt_succ_of_lt (hbnd b (by simp [hb]))
      have hdisj1 : ∀ b ∈ cs', b ∉ d ++ [m.nextAddr] := by
        intro b hb hmem
        rcases List.mem_append.mp hmem with h1 | h1
        · exact hdisj b (by simp [hb]) h1
        · simp at h1
          exact absurd (hbnd b (by simp [hb])) (by simp [h1])
      obtain ⟨m', dst', dnew', heq2, hchain2, hfresh2, hframe2, hdata2,
        hnx2, hvals2, hnum2⟩ :=
        ih m1 dst1 (d ++ [m.nextAddr]) (some a) hrest1 hbnd1 hchain1 hdisj1 k hk
      have hm1a : m1.heap a = some nd := by rw [hsrc1 a (by simp), hnd]
      refine ⟨m', dst', m.nextAddr :: dnew', ?_, ?_, ?_, ?_, ?_, ?_, ?_, ?_⟩
      · rw [hd?_cons]
        show (match m.heap a with
          | none => none
          | some nd =>
            match push_back m dst nd.data with
            | none => none
            | some (m1, dst1) =>
              match m1.heap a with
              | none => none
              | some nd1 => copyLoop T k m1 dst1 nd1.pNext) = some (m', dst')
        simp only [hnd, hpbeq, hm1a]
        rw [hn]
        exact heq2
      · have : d ++ m.nextAddr :: dnew' = (d ++ [m.nextAddr]) ++ dnew' := by
          simp
        rw [this]
        exact hchain2
      · intro b hb
        rcases List.mem_cons.mp hb with h1 | h1
        · simp [h1]
        · have := hfresh2 b h1
          rw [hnx1] at this
          exact Nat.le_of_succ_le this
      · intro b hbd hbnew
        have hbn : b ≠ m.nextAddr := fun he => hbnew (by simp [he])
        have hbnew' : b ∉ dnew' := fun hm => hbnew (by simp [hm])
        rw [hframe2 b (fun hm => by
            rcases List.mem_append.mp hm with h1 | h1
            · exact hbd h1
            · simp at h1; exact hbn h1) hbnew',
          hframe1 b hbd hbn]
      · intro b hbd
        have hbn : b ≠ m.nextAddr := by
          intro he
          obtain ⟨-, -, -, -, -, hbound'⟩ := hcd
          exact absurd (hbound' b hbd) (by simp [he])
        rw [hdata2 b (by simp [hbd]), hdata1 b hbd]
      · rw [hnx1] at hnx2
        exact le_trans (Nat.le_succ _) hnx2
      · have hassoc : d ++ m.nextAddr :: dnew' = (d ++ [m.nextAddr]) ++ dnew' := by
          simp
        rw [hassoc, hvals2]
        have hd1 : dataOf m1.heap (d ++ [m.nextAddr]) =
            dataOf m.heap d ++ [nd.data] := by
          rw [dataOf_append]
          congr 1
          · exact dataOf_congr _ _ _ hdata1
          · simp [dataOf, List.filterMap_cons, hnew1]
        have hcs' : dataOf m1.heap cs' = dataOf m.heap cs' :=
          dataOf_congr _ _ _ (fun b hb => by rw [hsrc1 b (by simp [hb])])
        rw [hd1, hcs']
        simp [dataOf, List.filterMap_cons, hnd]
      · rw [hnum2, hnum1]
        simp [Nat.add_assoc, Nat.add_comm 1]

/-- The copy constructor produces a fresh chain with the same data in
the same order, touching none of the source nodes. -/
theorem copy_construct_spec (m : Mem T) (rhs : list) (c : List Nat)
    (hc : isChain m rhs c) :
    ∃ m' dst dnew, copy_construct m rhs = some (m', dst) ∧
      isChain m' dst dnew ∧
      (∀ a ∈ dnew, a ∉ c) ∧
      (∀ a ∈ c, m'.heap a = m.heap a) ∧
      isChain m' rhs c ∧
      dataOf m'.heap dnew = dataOf m.heap c ∧
      dst.numElements = rhs.numElements := by
  obtain ⟨hseg, hhead, htail, hlen, hnodup, hbound⟩ := id hc
  have hmk0 : isChain m list.mk0 [] :=
    ⟨trivial, rfl, rfl, rfl, List.nodup_nil, by simp⟩
  obtain ⟨m', dst, dnew, heq, hchain, hfresh, hframe, -, hnx, hvals, hnum⟩ :=
    copyLoop_spec c m list.mk0 [] none hseg hbound hmk0 (by simp)
      rhs.numElements (le_of_eq hlen.symm)
  have hsrc : ∀ a ∈ c, m'.heap a = m.heap a := by
    intro a ha
    exact hframe a (by simp) (fun hmem =>
      absurd (hbound a ha) (not_lt.mpr (hfresh a hmem)))
  refine ⟨m', dst, dnew, ?_, by simpa using hchain, ?_, hsrc, ?_, ?_, ?_⟩
  · rw [copy_construct, hhead]
    exact heq
  · intro a ha hmem
    exact absurd (hbound a hmem) (not_lt.mpr (hfresh a ha))
  · refine ⟨(isSeg_congr _ _ _ _ _ hsrc).mpr hseg, hhead, htail, hlen, hnodup, ?_⟩
    intro a ha
    exact lt_of_lt_of_le (hbound a ha) hnx
  · rw [List.nil_append] at hvals
    rw [hvals]
    rfl
  · rw [hnum, hlen]
    simp [list.mk0]

/-- Copy assignment with distinct operands clears the left list and
deep-copies the right one; with identical operands it does nothing. -/
theorem assign_copy_spec (m : Mem T) (lhs rhs : list) (cl cr : List Nat)
    (hcl : isChain m lhs cl) (hcr : isChain m rhs cr)
    (hdisj : ∀ a ∈ cl, a ∉ cr) :
    ∃ m' dst dnew, assign_copy m lhs rhs false = some (m', dst) ∧
      isChain m' dst dnew ∧
      (∀ a ∈ dnew, a ∉ cr) ∧
      (∀ a ∈ cr, m'.heap a = m.heap a) ∧
      isChain m' rhs cr ∧
      dataOf m'.heap dnew = dataOf m.heap cr ∧
      dst.numElements = rhs.numElements := by
  obtain ⟨m1, hceq, hgone, hkeep, hnx1, -, hempty⟩ := clear_spec m lhs cl hcl
  obtain ⟨hsegr, hheadr, htailr, hlenr, hnodupr, hboundr⟩ := id hcr
  have hsrc1 : ∀ a ∈ cr, m1.heap a = m.heap a := by
    intro a ha
    exact hkeep a (fun hmem => hdisj a hmem ha)
  have hsegr1 : isSeg m1.heap none cr none :=
    (isSeg_congr _ _ _ _ _ hsrc1).mpr hsegr
  have hboundr1 : ∀ a ∈ cr, a < m1.nextAddr := by
    intro a ha
    rw [hnx1]
    exact hboundr a ha
  obtain ⟨m', dst, dnew, heq, hchain, hfresh, hframe, -, hnx, hvals, hnum⟩ :=
    copyLoop_spec cr m1
      { numElements := 0, pHead := none, pTail := none } [] none
      hsegr1 hboundr1 hempty (by simp) rhs.numElements (le_of_eq hlenr.symm)
  have hsrc : ∀ a ∈ cr, m'.heap a = m.heap a := by
    intro a ha
    rw [hframe a (by simp) (fun hmem =>
      absurd (hboundr1 a ha) (not_lt.mpr (hfresh a hmem)))]
    exact hsrc1 a ha
  refine ⟨m', dst, dnew, ?_, by simpa using hchain, ?_, hsrc, ?_, ?_, ?_⟩
  · simp only [assign_copy, Bool.false_eq_true, if_false, hceq, hheadr]
    exact heq
  · intro a ha hmem
    exact absurd (hboundr1 a hmem) (not_lt.mpr (hfresh a ha))
  · refine ⟨(isSeg_congr _ _ _ _ _ hsrc).mpr hsegr, hheadr, htailr, hlenr,
      hnodupr, ?_⟩
    intro a ha
    exact lt_of_lt_of_le (hboundr1 a ha) hnx
  · rw [List.nil_append] at hvals
    rw [hvals]
    show dataOf m1.heap ([] : List Nat) ++ dataOf m1.heap cr = dataOf m.heap cr
    rw [show dataOf m1.heap ([] : List Nat) = [] from rfl, List.nil_append]
    exact dataOf_congr _ _ _ (fun a ha => by rw [hsrc1 a ha])
  · rw [hnum, hlenr]
    simp

/-- Copy assignment behind the self-assignment guard is the identity. -/
theorem assign_copy_self (m : Mem T) (lhs rhs : list) :
    assign_copy m lhs rhs true = some (m, lhs) := rfl

/-- A one-node list: the node at address 0 holds 1. -/
def exHeap1 : Heap Int := fun a =>
  if a = 0 then some { data := 1, pNext := none, pPrev := none } else none

def exMem1 : Mem Int := { heap := exHeap1, nextAddr := 1, leakedT := 0 }

def exObj1 : list := { numElements := 1, pHead := some 0, pTail := some 0 }

theorem exChain1 : isChain exMem1 exObj1 [0] := by
  refine ⟨⟨_, rfl, rfl, rfl, trivial⟩, rfl, rfl, rfl, ?_, ?_⟩
  · decide
  · decide

/-- A two-node list 1, 2 at addresses 0 and 1. -/
def exHeap2 : Heap Int := fun a =>
  if a = 0 then some { data := 1, pNext := some 1, pPrev := none }
  else if a = 1 then some { data := 2, pNext := none, pPrev := some 0 }
  else none

def exMem2 : Mem Int := { heap := exHeap2, nextAddr := 2, leakedT := 0 }

def exObj2 : list := { numElements := 2, pHead := some 0, pTail := some 1 }

theorem exChain2 : isChain exMem2 exObj2 [0, 1] := by
  refine ⟨⟨_, rfl, rfl, rfl, _, rfl, rfl, rfl, trivial⟩, rfl, rfl, rfl, ?_, ?_⟩
  · decide
  · decide

/-- Two disjoint lists in one memory: a 1-node list holding 7 at
address 2, and a 2-node list 1, 2 at addresses 0, 1. -/
def exHeap3 : Heap Int := fun a =>
  if a = 0 then some { data := 1, pNext := some 1, pPrev := none }
  else if a = 1 then some { data := 2, pNext := none, pPrev := some 0 }
  else if a = 2 then some { data := 7, pNext := none, pPrev := none }
  else none

def exMem3 : Mem Int := { heap := exHeap3, nextAddr := 3, leakedT := 0 }

def exObjL : list := { numElements := 1, pHead := some 2, pTail := some 2 }

def exObjR : list := { numElements := 2, pHead := some 0, pTail := some 1 }

theorem exChain3L : isChain exMem3 exObjL [2] := by
  refine ⟨⟨_, rfl, rfl, rfl, trivial⟩, rfl, rfl, rfl, ?_, ?_⟩
  · decide
  · decide

theorem exChain3R : isChain exMem3 exObjR [0, 1] := by
  refine ⟨⟨_, rfl, rfl, rfl, _, rfl, rfl, rfl, trivial⟩, rfl, rfl, rfl, ?_, ?_⟩
  · decide
  · decide

theorem wf_mk0 (T : Type) : Wf (Mem.mk0 T) list.mk0 :=
  ⟨[], trivial, rfl, rfl, rfl, List.nodup_nil, by simp⟩

/-- C1: the claim fails on the move overload.  In src/list.h the body of
insert(iterator, T&&) is the single statement return end(); it
allocates nothing and changes nothing.  At the concrete one-node list
holding 1, insert of 5 before the head via the copy overload yields
count 2 and an iterator to the fresh node at address 1, while the move
overload leaves memory and list unchanged, keeps count at 1, and
returns the past-the-end iterator instead of an iterator to a new
node. -/
theorem C1_insert_move_overload_stub :
    (insert exMem1 exObj1 (some 0) (5 : Int)).map
        (fun r => (r.2.1.numElements, r.2.2)) = some (2, some 1) ∧
    insert_move exMem1 exObj1 (some 0) (5 : Int) =
      some (exMem1, exObj1, none) ∧
    exObj1.numElements = 1 := by
  refine ⟨?_, rfl, rfl⟩
  decide

/-- C2: the body of the move assignment operator in src/list.h is
*this = std::move(rhs); return *this; — overload resolution selects the
same move-assignment operator on the same operands, so every call only
performs the identical call again.  In the fuelled model the recursion
consumes any amount of fuel without ever producing a result: it never
releases the left operand, never adopts the right one, and never
resets it. -/
theorem C2_move_assignment_never_terminates (T : Type) (fuel : Nat)
    (m : Mem T) (lhs rhs : list) :
    assign_move_fuel T fuel m lhs rhs = none := by
  induction fuel with
  | zero => rfl
  | succ k ih => exact ih

/-- C3: swap does not exchange any state.  The free function body in
src/list.h is the single statement lhs.numElements = 99, and the member
swap has an empty body.  On a two-element list and an empty list, the
claim requires the operands to exchange head, tail and count; instead
the free function sets the left count to the constant 99 while both
lists keep their own head and tail, and the member function changes
nothing at all. -/
theorem C3_swap_exchanges_nothing :
    swap_free exMem2 exObj2 list.mk0 =
      (exMem2, { numElements := 99, pHead := some 0, pTail := some 1 },
        list.mk0) ∧
    swap_member exMem2 exObj2 list.mk0 = (exMem2, exObj2, list.mk0) :=
  ⟨rfl, rfl⟩

/-- C4: front() and back() on an empty list do not trap, signal, or
return a sentinel: src/list.h executes return *(new T), manufacturing a
default-constructed T on the free store and returning a reference to
it; nothing ever releases that object.  On the empty list both calls
succeed, return the default value, and raise the count of leaked raw T
allocations from 0 to 1. -/
theorem C4_front_back_leak_on_empty :
    front (Mem.mk0 Int) list.mk0 =
      some ({ Mem.mk0 Int with leakedT := 1 }, (default : Int)) ∧
    back (Mem.mk0 Int) list.mk0 =
      some ({ Mem.mk0 Int with leakedT := 1 }, (default : Int)) :=
  ⟨rfl, rfl⟩

/-- C5: assignment from an initializer sequence is the single statement
return *this; in src/list.h: it discards nothing and rebuilds nothing.
Assigning the sequence 2, 3 to the one-node list holding 1 leaves
memory and list bit-for-bit unchanged: the list still walks to the
single element 1 and still counts 1 element, not the required 2, 3. -/
theorem C5_assign_init_sequence_noop :
    assign_init exMem1 exObj1 [(2 : Int), 3] = (exMem1, exObj1) ∧
    elemsWalk exMem1.heap exObj1.numElements exObj1.pHead =
      some [(1 : Int)] ∧
    exObj1.numElements = 1 := ⟨rfl, rfl, rfl⟩

/-- C6: from any well-formed list state (each constructor of src/list.h
establishes one) and any finite sequence of push_front, push_back,
pop_front, pop_back, insert (either overload) and erase calls, every
call succeeds, and afterwards the walk along pNext from pHead and the
walk along pPrev from pTail both enumerate exactly numElements nodes,
one walk the reverse of the other; pHead and pTail are null exactly
when numElements is 0; and every adjacent pair of nodes references
each other. -/
theorem C6_structural_invariants (T : Type) (ops : List (Op T))
    (m : Mem T) (l : list) (h : Wf m l) :
    ∃ m' l', runOps ops (m, l) = some (m', l') ∧ StructOk m' l' := by
  obtain ⟨m', l', heq, hwf⟩ := runOps_wf ops m l h
  exact ⟨m', l', heq, wf_structOk m' l' hwf⟩

/-- A concrete workout for the C6 theorem. -/
def exOps : List (Op Int) :=
  [Op.pushBack 1, Op.pushBack 2, Op.pushFront 0, Op.insertCopy 1 9,
   Op.insertMove 0 7, Op.eraseAt 2, Op.popBack, Op.popFront]

theorem C6_structural_invariants_witness :
    Wf (Mem.mk0 Int) list.mk0 ∧
      ∃ m' l', runOps exOps (Mem.mk0 Int, list.mk0) = some (m', l') ∧
        StructOk m' l' :=
  ⟨wf_mk0 Int, C6_structural_invariants Int exOps (Mem.mk0 Int) list.mk0
    (wf_mk0 Int)⟩

/-- C7: pop_front and pop_back on an empty list, and erase at the
past-the-end iterator, are no-ops that leave memory and list unchanged
(erase returning the past-the-end iterator); erase at a node of the
chain detaches exactly that node, releases it, decrements numElements
by one, and returns an iterator to the node that followed it, which is
past-the-end exactly when the erased node was the tail. -/
theorem C7_noop_tolerance_and_erase (T : Type) (m : Mem T) (l : list)
    (c : List Nat) (hc : isChain m l c) :
    (l.pHead = none →
      pop_front m l = some (m, l) ∧ pop_back m l = some (m, l)) ∧
    erase m l none = some (m, l, none) ∧
    ∀ c1 c2 aDel, c = c1 ++ aDel :: c2 →
      ∃ m' l', erase m l (some aDel) = some (m', l', hd? c2 none) ∧
        isChain m' l' (c1 ++ c2) ∧
        l'.numElements = l.numElements - 1 ∧
        m'.heap aDel = none := by
  refine ⟨?_, erase_none m l, ?_⟩
  · intro hh
    have hcnil : c = [] := by
      have hc1 := hc.2.1
      rw [hh] at hc1
      cases c with
      | nil => rfl
      | cons a r => simp [hd?] at hc1
    subst hcnil
    exact ⟨pop_front_nil m l hh, pop_back_nil m l hc.2.2.1⟩
  · intro c1 c2 aDel hdecomp
    subst hdecomp
    obtain ⟨m', l', heq, hch, hnum, -, hgone⟩ := erase_spec m l c1 c2 aDel hc
    exact ⟨m', l', heq, hch, hnum, hgone⟩

theorem C7_noop_tolerance_and_erase_witness :
    isChain exMem2 exObj2 [0, 1] ∧
      (∃ m' l', erase exMem2 exObj2 (some 0) = some (m', l', hd? [1] none) ∧
        isChain m' l' ([] ++ [1]) ∧
        l'.numElements = exObj2.numElements - 1 ∧
        m'.heap 0 = none) :=
  ⟨exChain2,
   (C7_noop_tolerance_and_erase Int exMem2 exObj2 [0, 1] exChain2).2.2
     [] [1] 0 rfl⟩

/-- C8: move construction adopts pHead, pTail and numElements of the
source directly — the memory is returned untouched, so no per-element
work happens — and resets the source members to the empty state; the
new list realizes exactly the old chain of the source, so it holds the
same elements in the same order, and the reset source realizes the
empty chain. -/
theorem C8_move_construction (T : Type) (m : Mem T) (rhs : list)
    (c : List Nat) (hc : isChain m rhs c) :
    ∃ dst rhs', move_construct m rhs = (m, dst, rhs') ∧
      dst.pHead = rhs.pHead ∧ dst.pTail = rhs.pTail ∧
      dst.numElements = rhs.numElements ∧
      rhs' = { numElements := 0, pHead := none, pTail := none } ∧
      isChain m dst c ∧
      elemsWalk m.heap dst.numElements dst.pHead =
        some (dataOf m.heap c) ∧
      isChain m rhs' [] := by
  refine ⟨_, _, rfl, rfl, rfl, rfl, rfl, ?_, ?_, ?_⟩
  · exact ⟨hc.1, hc.2.1, hc.2.2.1, hc.2.2.2.1, hc.2.2.2.2.1, hc.2.2.2.2.2⟩
  · show elemsWalk m.heap rhs.numElements rhs.pHead = some (dataOf m.heap c)
    rw [hc.2.1, hc.2.2.2.1]
    exact elemsWalk_chain m.heap none c hc.1 c.length le_rfl
  · exact ⟨trivial, rfl, rfl, rfl, List.nodup_nil, by simp⟩

theorem C8_move_construction_witness :
    isChain exMem2 exObj2 [0, 1] ∧
      (∃ dst rhs', move_construct exMem2 exObj2 = (exMem2, dst, rhs') ∧
        dst.pHead = exObj2.pHead ∧ dst.pTail = exObj2.pTail ∧
        dst.numElements = exObj2.numElements ∧
        rhs' = { numElements := 0, pHead := none, pTail := none } ∧
        isChain exMem2 dst [0, 1] ∧
        elemsWalk exMem2.heap dst.numElements dst.pHead =
          some (dataOf exMem2.heap [0, 1]) ∧
        isChain exMem2 rhs' []) :=
  ⟨exChain2, C8_move_construction Int exMem2 exObj2 [0, 1] exChain2⟩

/-- C9: the copy constructor, and copy assignment between distinct
lists, produce a destination whose chain consists of freshly allocated
nodes sharing no address with the source chain and storing the same
data values in the same order, with the same element count; and copy
assignment of a list to itself takes the guard branch and changes
nothing. -/
theorem C9_copy_is_deep (T : Type) (m : Mem T) (lhs rhs : list)
    (cl cr : List Nat) (hcl : isChain m lhs cl) (hcr : isChain m rhs cr)
    (hdisj : ∀ a ∈ cl, a ∉ cr) :
    (∃ m' dst dnew, copy_construct m rhs = some (m', dst) ∧
      isChain m' dst dnew ∧ (∀ a ∈ dnew, a ∉ cr) ∧
      dataOf m'.heap dnew = dataOf m.heap cr ∧
      dst.numElements = rhs.numElements) ∧
    (∃ m' dst dnew, assign_copy m lhs rhs false = some (m', dst) ∧
      isChain m' dst dnew ∧ (∀ a ∈ dnew, a ∉ cr) ∧
      dataOf m'.heap dnew = dataOf m.heap cr ∧
      dst.numElements = rhs.numElements) ∧
    assign_copy m lhs rhs true = some (m, lhs) := by
  refine ⟨?_, ?_, rfl⟩
  · obtain ⟨m', dst, dnew, heq, hch, hdsj, -, -, hvals, hnum⟩ :=
      copy_construct_spec m rhs cr hcr
    exact ⟨m', dst, dnew, heq, hch, hdsj, hvals, hnum⟩
  · obtain ⟨m', dst, dnew, heq, hch, hdsj, -, -, hvals, hnum⟩ :=
      assign_copy_spec m lhs rhs cl cr hcl hcr hdisj
    exact ⟨m', dst, dnew, heq, hch, hdsj, hvals, hnum⟩

theorem C9_copy_is_deep_witness :
    isChain exMem3 exObjL [2] ∧ isChain exMem3 exObjR [0, 1] ∧
      (∀ a ∈ [2], a ∉ [0, 1]) ∧
      ((∃ m' dst dnew, copy_construct exMem3 exObjR = some (m', dst) ∧
        isChain m' dst dnew ∧ (∀ a ∈ dnew, a ∉ [0, 1]) ∧
        dataOf m'.heap dnew = dataOf exMem3.heap [0, 1] ∧
        dst.numElements = exObjR.numElements) ∧
      (∃ m' dst dnew, assign_copy exMem3 exObjL exObjR false = some (m', dst) ∧
        isChain m' dst dnew ∧ (∀ a ∈ dnew, a ∉ [0, 1]) ∧
        dataOf m'.heap dnew = dataOf exMem3.heap [0, 1] ∧
        dst.numElements = exObjR.numElements) ∧
      assign_copy exMem3 exObjL exObjR true = some (exMem3, exObjL)) :=
  ⟨exChain3L, exChain3R, by decide,
   C9_copy_is_deep Int exMem3 exObjL exObjR [2] [0, 1] exChain3L exChain3R
     (by decide)⟩

/-- C10: although the C++ copy constructor and copy assignment take the
source by non-const reference, they only read it: the embedding never
writes the source members, every source node is unchanged in the heap
after the copy, the source still realizes its original chain, and its
element sequence reads back identically. -/
theorem C10_copy_leaves_source_unchanged (T : Type) (m : Mem T)
    (lhs rhs : list) (cl cr : List Nat)
    (hcl : isChain m lhs cl) (hcr : isChain m rhs cr)
    (hdisj : ∀ a ∈ cl, a ∉ cr) :
    (∃ m' dst, copy_construct m rhs = some (m', dst) ∧
      (∀ a ∈ cr, m'.heap a = m.heap a) ∧ isChain m' rhs cr ∧
      elemsWalk m'.heap rhs.numElements rhs.pHead =
        elemsWalk m.heap rhs.numElements rhs.pHead) ∧
    (∃ m' dst, assign_copy m lhs rhs false = some (m', dst) ∧
      (∀ a ∈ cr, m'.heap a = m.heap a) ∧ isChain m' rhs cr ∧
      elemsWalk m'.heap rhs.numElements rhs.pHead =
        elemsWalk m.heap rhs.numElements rhs.pHead) := by
  obtain ⟨hsegr, hheadr, htailr, hlenr, -, -⟩ := id hcr
  constructor
  · obtain ⟨m', dst, dnew, heq, -, -, hsrc, hcr', -, -⟩ :=
      copy_construct_spec m rhs cr hcr
    refine ⟨m', dst, heq, hsrc, hcr', ?_⟩
    rw [hheadr, hlenr,
      elemsWalk_chain m'.heap none cr hcr'.1 cr.length le_rfl,
      elemsWalk_chain m.heap none cr hsegr cr.length le_rfl,
      dataOf_congr _ _ _ (fun a ha => by rw [hsrc a ha])]
  · obtain ⟨m', dst, dnew, heq, -, -, hsrc, hcr', -, -⟩ :=
      assign_copy_spec m lhs rhs cl cr hcl hcr hdisj
    refine ⟨m', dst, heq, hsrc, hcr', ?_⟩
    rw [hheadr, hlenr,
      elemsWalk_chain m'.heap none cr hcr'.1 cr.length le_rfl,
      elemsWalk_chain m.heap none cr hsegr cr.length le_rfl,
      dataOf_congr _ _ _ (fun a ha => by rw [hsrc a ha])]

theorem C10_copy_leaves_source_unchanged_witness :
    isChain exMem3 exObjL [2] ∧ isChain exMem3 exObjR [0, 1] ∧
      (∀ a ∈ [2], a ∉ [0, 1]) ∧
      ((∃ m' dst, copy_construct exMem3 exObjR = some (m', dst) ∧
        (∀ a ∈ [0, 1], m'.heap a = exMem3.heap a) ∧
        isChain m' exObjR [0, 1] ∧
        elemsWalk m'.heap exObjR.numElements exObjR.pHead =
          elemsWalk exMem3.heap exObjR.numElements exObjR.pHead) ∧
      (∃ m' dst, assign_copy exMem3 exObjL exObjR false = some (m', dst) ∧
        (∀ a ∈ [0, 1], m'.heap a = exMem3.heap a) ∧
        isChain m' exObjR [0, 1] ∧
        elemsWalk m'.heap exObjR.numElements exObjR.pHead =
          elemsWalk exMem3.heap exObjR.numElements exObjR.pHead)) :=
  ⟨exChain3L, exChain3R, by decide,
   C10_copy_leaves_source_unchanged Int exMem3 exObjL exObjR [2] [0, 1]
     exChain3L exChain3R (by decide)⟩

end custom
